import Mathlib

/-!
# A debugging allocator (`m61.cc`): embedding and verified properties

The allocator wraps an underlying allocator (`base_malloc` / `base_free`), puts a
`metadata` header in front of every payload, keeps the live headers in a doubly
linked list anchored at the global `base_meta`, writes one canary byte after the
payload, and keeps counters in `global_stats` and a log `hhvec` of call sites.

Conventions of the embedding (LP64, as the source assumes with `%lu` for `size_t`):

* pointers, `size_t`, `uintptr_t` and `unsigned long long` are `Nat` below `2^64`,
  every arithmetic operation of the source is followed by `% 2^64`;
  `long` values are `Int`; the null pointer is `0`;
* memory is seen in two ways: `mem a` is what the 56 bytes at address `a` are when
  read as a `metadata` object (the global `base_meta` is the object at
  `base_meta_addr`), `bytes a` is the `char` at address `a`. The allocator reads and
  writes its headers through `mem` and the canary through `bytes`. The caller stores
  single bytes (`write_byte`) or the 56 bytes of a whole object (`write_image`, which
  is how bytes written by the caller come to be read as a header by `m61_free`). The
  two views are kept apart, so a history is the history of a real run as long as no
  cell is written in one view and read in the other: `Disciplined` is the set of
  histories where this holds. In `Reachable` and `History` the caller may pass any
  pointer to `m61_free`, and a header read at a cell of the caller is what the start
  memory held there. `base_free` leaves the block as it is;
* `base_malloc` and `base_free` are not part of `m61.cc`: the pointer returned by
  `base_malloc` is an argument of the operations (`blk`), and the calls made to
  both are recorded in `base_calls`;
* what `printf` writes is recorded as a list of structured lines in `out`;
* undefined behaviour of the source (a store through a null pointer, a division
  by zero, a vector access out of range, a loop that never ends) is a `Fault`.
-/

namespace M61

/-! ## Machine constants -/

/-- Number of values of a 64-bit word. -/
def WORD : Nat := 2 ^ 64

/-- The value of `(size_t) -1`. -/
def SIZE_MAX : Nat := 2 ^ 64 - 1

/-- Unsigned 64-bit addition. -/
def uadd (a b : Nat) : Nat := (a + b) % WORD

/-- Unsigned 64-bit subtraction of two 64-bit values (wraps around below zero). -/
def usub (a b : Nat) : Nat := if b ≤ a then a - b else a + WORD - b

/-- Unsigned 64-bit multiplication. -/
def umul (a b : Nat) : Nat := (a * b) % WORD

/-! ## Data model -/

/-- The header `struct metadata`: seven 8-byte fields. -/
structure metadata where
  file : Nat
  line : Int
  size : Nat
  id : Nat
  unfreed : Int
  next : Nat
  last : Nat
deriving DecidableEq, Repr

/-- The value of `sizeof(metadata)`: seven 8-byte fields. -/
def sizeof_metadata : Nat := 56

/-- Modelled from the spec: the counters block `m61_statistics` is declared in `m61.hh`,
which is not among the sources; the fields are the six counters and the two heap bounds
that `m61.cc` reads and writes, in the order of the initialiser of `global_stats`. -/
structure m61_statistics where
  nactive : Nat
  active_size : Nat
  ntotal : Nat
  total_size : Nat
  nfail : Nat
  fail_size : Nat
  heap_min : Nat
  heap_max : Nat
deriving DecidableEq, Repr

/-- The global `id` of the source (named `id_tag` here, `id` being taken in Lean):
the tag stored in every header the allocator writes. -/
def id_tag : Nat := 1996199501071030

/-- The global `idc`: the canary character `'Z'`. -/
def idc : Nat := 90

/-- The global `unfreed_id`: the marker of a header that has not been freed. -/
def unfreed_id : Int := 100000

/-- The entry `struct hhstruct` of the heavy-hitter log: the pair `file_line`
(a `const char*` and a `long`) and a size. -/
structure hhstruct where
  file_line : Nat × Int
  size : Nat
deriving DecidableEq, Repr

/-- Single-precision values as they occur in the report: zero or a positive normal
number `man * 2 ^ exp` with `2^23 ≤ man < 2^24`, or the result of `0.0f / 0.0f`. -/
inductive F32 where
  | fin (man : Nat) (exp : Int)
  | inf
  | nan
deriving DecidableEq, Repr

/-- One line written by `printf`, with the arguments of the format. -/
inductive Diag where
  | not_in_heap (file : Nat) (line : Int) (ptr : Nat)
  | not_allocated (file : Nat) (line : Int) (ptr : Nat)
  | inside_region (file : Nat) (line : Int) (ptr offset size : Nat)
  | double_free (file : Nat) (line : Int) (ptr : Nat)
  | wild_write (file : Nat) (line : Int) (ptr : Nat)
  | leak (file : Nat) (line : Int) (ptr : Nat) (size : Int)
  | heavy_hitter (file : Nat) (line : Int) (bytes : Nat) (percent : F32)
deriving DecidableEq, Repr

/-- A call made to the underlying allocator: `base_malloc(n)` returning `ret`,
or `base_free(p)`. -/
inductive BaseCall where
  | malloc (n ret : Nat)
  | free (p : Nat)
deriving DecidableEq, Repr

/-- Undefined behaviour reached by the source. -/
inductive Fault where
  | null_deref
  | div_by_zero
  | out_of_range
  | diverges
deriving DecidableEq, Repr

/-- The state of the process as far as `m61.cc` sees it. `base_meta_addr` is the
address of the global `base_meta`; no operation changes it. `mem a` is the object that
the 56 bytes at address `a` are when read as a `metadata`, `bytes a` is the character at
address `a`; a store in one view is not carried over to the other (see the conventions
at the head of the file, `write_image` and `Disciplined`). -/
structure State where
  base_meta_addr : Nat
  mem : Nat → metadata
  bytes : Nat → Nat
  global_stats : m61_statistics
  hhvec : List hhstruct
  out : List Diag
  base_calls : List BaseCall

/-- The state at program start: `base_meta` and `global_stats` as initialised in the
source, an empty log, nothing printed, no call made; `mem0` and `bytes0` are the
contents of the rest of memory. -/
def initial (B : Nat) (mem0 : Nat → metadata) (bytes0 : Nat → Nat) : State :=
  { base_meta_addr := B
    mem := Function.update mem0 B ⟨0, 0, 0, 0, 0, 0, 0⟩
    bytes := bytes0
    global_stats := ⟨0, 0, 0, 0, 0, 0, 0, 0⟩
    hhvec := []
    out := []
    base_calls := [] }

/-! ## Helper functions of the source -/

/-- The function `isOverflowed(a, b)`: `prod / a != b` with `prod = a * b` in 64 bits.
The division has no guard: for `a = 0` it divides by zero. -/
def isOverflowed (a b : Nat) : Except Fault Bool :=
  if a = 0 then .error .div_by_zero
  else .ok (decide (umul a b / a ≠ b))

/-- The function `wasFreed(ptr)`, on the header read through `ptr`. -/
def wasFreed (h : metadata) : Bool := decide (h.unfreed ≠ unfreed_id)

/-- The function `pointToExistence(ptr, mptr)`: `mptr <= ptr <= mptr + sizeof(metadata)
+ mptr->size`, where `h` is the header read through `mptr`. -/
def pointToExistence (ptr mptr : Nat) (h : metadata) : Bool :=
  let endptr := uadd (uadd mptr sizeof_metadata) h.size
  decide (ptr ≥ mptr ∧ ptr ≤ endptr)

/-- The comparator `lineCompare`: `operator<` of `std::pair`, lexicographic on the
address of the file name and the line number. -/
def lineCompare (h1 h2 : hhstruct) : Bool :=
  decide (h1.file_line.1 < h2.file_line.1 ∨
    (¬ h2.file_line.1 < h1.file_line.1 ∧ h1.file_line.2 < h2.file_line.2))

/-- The comparator `sizeCompare`. -/
def sizeCompare (h1 h2 : hhstruct) : Bool := decide (h1.size > h2.size)

/-! ## m61_malloc -/

/-- The right-hand side of the size check of `m61_malloc`:
`(size_t) -1 - global_stats.active_size - sizeof(metadata) - 1024`. -/
def size_limit (active_size : Nat) : Nat :=
  usub (usub (usub SIZE_MAX active_size) sizeof_metadata) 1024

/-- The function `m61_malloc(sz, file, line)`; `blk` is what `base_malloc` returns
when it is called. The result is the returned pointer and the new state. -/
def m61_malloc (s : State) (blk sz file : Nat) (line : Int) : Except Fault (Nat × State) :=
  let data : metadata := ⟨file, line, sz, id_tag, unfreed_id, 0, 0⟩
  if sz ≥ size_limit s.global_stats.active_size then
    .ok (0, { s with
      global_stats := { s.global_stats with
        nfail := uadd s.global_stats.nfail 1
        fail_size := uadd s.global_stats.fail_size sz } })
  else
    let calls := s.base_calls ++ [.malloc (uadd (uadd sz sizeof_metadata) 16) blk]
    if blk = 0 then .error .null_deref
    else
      let B := s.base_meta_addr
      let m1 := Function.update s.mem blk data
      let m2 := Function.update m1 blk { m1 blk with next := (m1 B).next }
      let m3 := Function.update m2 blk { m2 blk with last := B }
      let m4 := if (m3 B).next ≠ 0 then
          Function.update m3 (m3 B).next { m3 (m3 B).next with last := blk }
        else m3
      let m5 := Function.update m4 B { m4 B with next := blk }
      let ptr := uadd blk sizeof_metadata
      let trailptr := uadd ptr sz
      let bytes1 := Function.update s.bytes trailptr idc
      let st := s.global_stats
      let st1 := { st with
        nactive := uadd st.nactive 1
        active_size := uadd st.active_size sz
        ntotal := uadd st.ntotal 1
        total_size := uadd st.total_size sz }
      let st2 := if ptr < st1.heap_min ∨ st1.heap_min = 0 then { st1 with heap_min := ptr } else st1
      let st3 := if uadd ptr sz > st2.heap_max ∨ st2.heap_min = 0 then
          { st2 with heap_max := uadd ptr sz }
        else st2
      .ok (ptr, { s with
        mem := m5
        bytes := bytes1
        global_stats := st3
        hhvec := s.hhvec ++ [⟨(file, line), sz⟩]
        base_calls := calls })

/-! ## m61_free -/

/-- The `while` loop of the "not allocated" branch of `m61_free`: walk the list from
`checkptr` and print one line for the first header whose range contains `ptr`.
The walk is over addresses below `2^64` in a memory the loop does not change, so a walk
of more than `2^64` steps never ends; `fuel` counts the steps. -/
def scan_inside (mem : Nat → metadata) (ptr file : Nat) :
    Nat → Nat → Except Fault (List Diag)
  | 0, _ => .error .diverges
  | fuel + 1, checkptr =>
    if checkptr = 0 then .ok []
    else if pointToExistence ptr checkptr (mem checkptr) then
      .ok [.inside_region file (mem checkptr).line ptr
        (usub ptr (uadd checkptr sizeof_metadata)) (mem checkptr).size]
    else scan_inside mem ptr file fuel (mem checkptr).next

/-- The function `m61_free(ptr, file, line)`. -/
def m61_free (s : State) (ptr file : Nat) (line : Int) : Except Fault State :=
  let metaptr := usub ptr sizeof_metadata
  if ptr = 0 then .ok s
  else if ptr < s.global_stats.heap_min ∨ ptr > s.global_stats.heap_max then
    .ok { s with out := s.out ++ [.not_in_heap file line ptr] }
  else if ptr % 8 ≠ 0 ∨ (s.mem metaptr).id ≠ id_tag then
    match scan_inside s.mem ptr file (WORD + 1) (s.mem s.base_meta_addr).next with
    | .error e => .error e
    | .ok ds => .ok { s with out := s.out ++ [.not_allocated file line ptr] ++ ds }
  else if (s.mem metaptr).id = id_tag ∧ wasFreed (s.mem metaptr) = true then
    .ok { s with out := s.out ++ [.double_free file line ptr] }
  else
    let out1 :=
      if (s.mem metaptr).next ≠ 0 ∧ (s.mem (s.mem metaptr).next).last ≠ metaptr then
        s.out ++ [.not_allocated file line ptr]
      else s.out
    let trailptr := uadd ptr (s.mem metaptr).size
    if s.bytes trailptr ≠ idc then
      .ok { s with out := out1 ++ [.wild_write file line ptr] }
    else
      let m1 := if (s.mem metaptr).next ≠ 0 then
          Function.update s.mem (s.mem metaptr).next
            { s.mem (s.mem metaptr).next with last := (s.mem metaptr).last }
        else s.mem
      let m2 := if (m1 metaptr).last ≠ 0 then
          Function.update m1 (m1 metaptr).last
            { m1 (m1 metaptr).last with next := (m1 metaptr).next }
        else
          Function.update m1 s.base_meta_addr
            { m1 s.base_meta_addr with next := (m1 metaptr).next }
      let st := s.global_stats
      let st1 := { st with active_size := usub st.active_size (m2 metaptr).size }
      let st2 := { st1 with nactive := usub st1.nactive 1 }
      let m3 := Function.update m2 metaptr { m2 metaptr with unfreed := 0 }
      .ok { s with
        mem := m3
        global_stats := st2
        out := out1
        base_calls := s.base_calls ++ [.free metaptr] }

/-! ## m61_calloc -/

/-- The call `memset(ptr, 0, n)` on the byte store. -/
def memset_zero (bytes : Nat → Nat) (ptr n : Nat) : Nat → Nat :=
  fun a => if ptr ≤ a ∧ a < ptr + n then 0 else bytes a

/-- The function `m61_calloc(nmemb, sz, file, line)`; `blk` is what `base_malloc`
returns when `m61_malloc` calls it. -/
def m61_calloc (s : State) (blk nmemb sz file : Nat) (line : Int) :
    Except Fault (Nat × State) :=
  match isOverflowed nmemb sz with
  | .error e => .error e
  | .ok true =>
    .ok (0, { s with
      global_stats := { s.global_stats with nfail := uadd s.global_stats.nfail 1 } })
  | .ok false =>
    match m61_malloc s blk (umul nmemb sz) file line with
    | .error e => .error e
    | .ok (ptr, s1) =>
      if ptr ≠ 0 then
        .ok (ptr, { s1 with bytes := memset_zero s1.bytes ptr (umul nmemb sz) })
      else .ok (ptr, s1)

/-! ## m61_print_leak_report -/

/-- The conversion of a `size_t` to `long long`. -/
def to_signed (n : Nat) : Int := if n < 2 ^ 63 then (n : Int) else (n : Int) - (2 : Int) ^ 64

/-- The `while` loop of `m61_print_leak_report`, from the header `next`; `fuel` counts
the steps as in `scan_inside`. -/
def leak_loop (mem : Nat → metadata) : Nat → Nat → Except Fault (List Diag)
  | 0, _ => .error .diverges
  | fuel + 1, next =>
    if next = 0 then .ok []
    else
      match leak_loop mem fuel (mem next).next with
      | .error e => .error e
      | .ok ds =>
        .ok (.leak (mem next).file (mem next).line (uadd next sizeof_metadata)
          (to_signed (mem next).size) :: ds)

/-- The function `m61_print_leak_report()`. -/
def m61_print_leak_report (s : State) : Except Fault State :=
  match leak_loop s.mem (WORD + 1) (s.mem s.base_meta_addr).next with
  | .error e => .error e
  | .ok ds => .ok { s with out := s.out ++ ds }

/-! ## Single-precision arithmetic of the heavy-hitter report -/

namespace F32

/-- The fraction `num / den` that a finite value stands for. -/
def toFrac (man : Nat) (exp : Int) : Nat × Nat :=
  if exp ≥ 0 then (man * 2 ^ exp.toNat, 1) else (man, 2 ^ (-exp).toNat)

/-- The position of the highest set bit of `n` (`0` for `n < 2`); `fuel` bounds the
number of halvings. -/
def log2_fuel : Nat → Nat → Nat
  | 0, _ => 0
  | fuel + 1, n => if n < 2 then 0 else log2_fuel fuel (n / 2) + 1

/-- Whether `n / d ≥ 2 ^ e`. -/
def ge_pow2 (n d : Nat) (e : Int) : Bool :=
  if e ≥ 0 then decide (n ≥ d * 2 ^ e.toNat) else decide (n * 2 ^ (-e).toNat ≥ d)

/-- Round the non-negative fraction `n / d` (with `0 < d`) to single precision:
24 significant bits, round to nearest, ties to even; below `2^-126` the spacing stays
`2^-149`, and what rounds to `2^128` or more is infinite. -/
def round (n d : Nat) : F32 :=
  if n = 0 then .fin 0 0
  else
    let c : Int := (log2_fuel n n : Int) - (log2_fuel d d : Int)
    let e : Int := if ge_pow2 n d c then c else c - 1
    let sh : Int := if e - 23 < -149 then -149 else e - 23
    let N : Nat := if sh ≥ 0 then n else n * 2 ^ (-sh).toNat
    let D : Nat := if sh ≥ 0 then d * 2 ^ sh.toNat else d
    let q := N / D
    let r := N % D
    let m := if 2 * r > D ∨ (2 * r = D ∧ q % 2 = 1) then q + 1 else q
    let res : Nat × Int := if m = 2 ^ 24 then (2 ^ 23, sh + 1) else (m, sh)
    if res.2 > 104 then .inf else .fin res.1 res.2

/-- The conversion of an unsigned integer to `float`. -/
def ofNat (n : Nat) : F32 := round n 1

/-- Addition of non-negative `float` values. -/
def add : F32 → F32 → F32
  | .fin ma ea, .fin mb eb =>
    let a := toFrac ma ea
    let b := toFrac mb eb
    round (a.1 * b.2 + b.1 * a.2) (a.2 * b.2)
  | .nan, _ => .nan
  | _, .nan => .nan
  | _, _ => .inf

/-- Division of non-negative `float` values. -/
def div : F32 → F32 → F32
  | .fin ma ea, .fin mb eb =>
    let a := toFrac ma ea
    let b := toFrac mb eb
    if b.1 = 0 then (if a.1 = 0 then .nan else .inf)
    else round (a.1 * b.2) (a.2 * b.1)
  | .fin _ _, .inf => .fin 0 0
  | .inf, .fin _ _ => .inf
  | _, _ => .nan

/-- Multiplication of non-negative `float` values. -/
def mul : F32 → F32 → F32
  | .fin ma ea, .fin mb eb =>
    let a := toFrac ma ea
    let b := toFrac mb eb
    round (a.1 * b.1) (a.2 * b.2)
  | .inf, .fin m _ => if m = 0 then .nan else .inf
  | .fin m _, .inf => if m = 0 then .nan else .inf
  | .inf, .inf => .inf
  | _, _ => .nan

/-- The comparison `x >= k` of a `float` with an integer constant. -/
def ge_nat : F32 → Nat → Bool
  | .fin m e, k => decide ((toFrac m e).1 ≥ k * (toFrac m e).2)
  | .inf, _ => true
  | .nan, _ => false

end F32

/-! ## m61_print_heavy_hitter_report -/

/-- Insertion of `x` into a list sorted by `less`: after the elements that are `less`
than `x`, before the others. -/
def sort_insert {α : Type} (less : α → α → Bool) (x : α) : List α → List α
  | [] => [x]
  | y :: ys => if less y x then y :: sort_insert less x ys else x :: y :: ys

/-- One `std::sort(v.begin(), v.end(), less)`: the insertion sort that libstdc++ runs on
a vector of at most 16 elements, which keeps equivalent elements in their order. The
library only promises a permutation in which no element is `less` than an earlier one
(`sorts_by`), and on longer vectors libstdc++ orders equivalent elements otherwise; what
is stated for every log is stated for every sort with that promise
(`m61_print_heavy_hitter_report_with`). -/
def std_sort {α : Type} (less : α → α → Bool) : List α → List α
  | [] => []
  | x :: xs => sort_insert less x (std_sort less xs)

/-- The access `v[i]` of a `std::vector`. Outside `0 ≤ i < v.size()` the access is
undefined: `oob` is what it yields, `none` when it traps and `some j` when it reads an
object `j` found there. -/
def vec_at (oob : Option hhstruct) (v : List hhstruct) (i : Nat) : Except Fault hhstruct :=
  match v.get? i with
  | some h => .ok h
  | none =>
    match oob with
    | some j => .ok j
    | none => .error .out_of_range

/-- Number of rounds of `for (unsigned int i = 1; i != hhvec.size(); i++)`: `i` is a
32-bit counter, so for an empty vector it runs until `i` wraps to `0`, and for a vector
of `2^32` elements or more `i` never equals the size. -/
def group_rounds (size : Nat) : Option Nat :=
  if size = 0 then some (2 ^ 32 - 1)
  else if size < 2 ^ 32 then some (size - 1)
  else none

/-- The grouping loop of the report: `n` rounds from index `i`, with `result` built so
far. -/
def group_loop (oob : Option hhstruct) (hhvec : List hhstruct) :
    Nat → Nat → List hhstruct → Except Fault (List hhstruct)
  | 0, _, result => .ok result
  | n + 1, i, result =>
    match vec_at oob hhvec (i % 2 ^ 32) with
    | .error e => .error e
    | .ok h =>
      match result.getLast? with
      | none => .error .out_of_range
      | some b =>
        if h.file_line = b.file_line then
          group_loop oob hhvec n (i + 1)
            (result.dropLast ++ [{ b with size := uadd b.size h.size }])
        else group_loop oob hhvec n (i + 1) (result ++ [h])

/-- The loop `for (int i = 0; i != result.size(); i++) total_size1 += result[i].size`. -/
def total_size1 (result : List hhstruct) : F32 :=
  result.foldl (fun t h => F32.add t (F32.ofNat h.size)) (.fin 0 0)

/-- The value `result[i].size / total_size1 * 100`. -/
def percent_of (h : hhstruct) (total : F32) : F32 :=
  F32.mul (F32.div (F32.ofNat h.size) total) (F32.ofNat 100)

/-- The printing loop `for (int i = result.size(); i != 0; i--)`, entered with index
`i`: it reads `result[i]`, then goes on with `i - 1`, and stops before index `0`. -/
def print_loop (oob : Option hhstruct) (result : List hhstruct) (total : F32) :
    Nat → Except Fault (List Diag)
  | 0 => .ok []
  | i + 1 =>
    match vec_at oob result (i + 1) with
    | .error e => .error e
    | .ok h =>
      match print_loop oob result total i with
      | .error e => .error e
      | .ok rest =>
        if F32.ge_nat (percent_of h total) 20 then
          .ok (.heavy_hitter h.file_line.1 h.file_line.2 h.size (percent_of h total) :: rest)
        else .ok rest

/-- The function `m61_print_heavy_hitter_report()`, with the library function
`std::sort` as the parameter `sort`; `oob` as in `vec_at`. The first `std::sort`
reorders the global log itself. -/
def m61_print_heavy_hitter_report_with
    (sort : (hhstruct → hhstruct → Bool) → List hhstruct → List hhstruct)
    (oob : Option hhstruct) (s : State) : Except Fault State :=
  let hv := sort lineCompare s.hhvec
  match vec_at oob hv 0 with
  | .error e => .error e
  | .ok h0 =>
    match group_rounds hv.length with
    | none => .error .diverges
    | some n =>
      match group_loop oob hv n 1 [h0] with
      | .error e => .error e
      | .ok grouped =>
        let result := sort sizeCompare grouped
        match print_loop oob result (total_size1 result) result.length with
        | .error e => .error e
        | .ok ds => .ok { s with hhvec := hv, out := s.out ++ ds }

/-- The function `m61_print_heavy_hitter_report()` as it runs with the `std::sort` of
libstdc++ on logs of at most 16 samples (`std_sort`). -/
def m61_print_heavy_hitter_report (oob : Option hhstruct) (s : State) : Except Fault State :=
  m61_print_heavy_hitter_report_with std_sort oob s

/-! ## The environment of the allocator and the reachable states -/

/-- The caller stores the byte `v` at address `a` of the payload area. -/
def write_byte (s : State) (a v : Nat) : State :=
  { s with bytes := Function.update s.bytes a v }

/-- The effect of one call on the blocks `(address, length)` that the underlying
allocator has handed out and not got back. -/
def outstanding_step (live : List (Nat × Nat)) : BaseCall → List (Nat × Nat)
  | .malloc n ret => if ret = 0 then live else live ++ [(ret, n)]
  | .free p => live.filter (fun e => decide (e.1 ≠ p))

/-- The blocks `(address, length)` handed out by `base_malloc` and not yet passed to
`base_free`, after the calls `calls`. -/
def outstanding (calls : List BaseCall) : List (Nat × Nat) :=
  calls.foldl outstanding_step []

/-- Modelled from the spec: `base_malloc` is the underlying system allocator and is not
among the sources. What is assumed of the pointer `blk` it returns for a request of `n`
bytes: it is null, or it is 16-byte aligned and the `n` bytes from `blk` lie in the
address space, away from the global `base_meta` and from every block handed out and
not yet given back. -/
def base_malloc_ok (s : State) (n blk : Nat) : Prop :=
  blk ≠ 0 →
    blk % 16 = 0 ∧ blk + n ≤ WORD ∧
    (blk + n ≤ s.base_meta_addr ∨ s.base_meta_addr + sizeof_metadata ≤ blk) ∧
    ∀ e ∈ outstanding s.base_calls, blk + n ≤ e.1 ∨ e.1 + e.2 ≤ blk

instance (s : State) (n blk : Nat) : Decidable (base_malloc_ok s n blk) := by
  unfold base_malloc_ok; infer_instance

/-- The list `l` is the sequence of headers met from the header at `prev` along the
`next` pointers up to the null pointer, and every `last` pointer points back to the
header before. -/
def linked (mem : Nat → metadata) : Nat → List Nat → Prop
  | prev, [] => (mem prev).next = 0
  | prev, a :: l => (mem prev).next = a ∧ a ≠ 0 ∧ (mem a).last = prev ∧ linked mem a l

/-- The records of the registry, in order from the sentinel `base_meta`: `l` lists the
addresses of the headers linked after it. -/
def registry (s : State) (l : List Nat) : Prop := linked s.mem s.base_meta_addr l

/-- The states the process can be in: the start state (where no object in memory
carries both the tag and the live marker of the allocator), and the states reached from
there by calls of `m61_malloc`, `m61_calloc` and `m61_free` that return, and by stores
of the caller into the byte store. -/
inductive Reachable : State → Prop
  | init (B : Nat) (mem0 : Nat → metadata) (bytes0 : Nat → Nat) :
      B ≠ 0 → B + sizeof_metadata ≤ WORD →
      (∀ a, ¬ ((mem0 a).id = id_tag ∧ (mem0 a).unfreed = unfreed_id)) →
      Reachable (initial B mem0 bytes0)
  | malloc {s s1 : State} {blk sz file p : Nat} {line : Int} :
      Reachable s → sz < WORD →
      base_malloc_ok s (uadd (uadd sz sizeof_metadata) 16) blk →
      m61_malloc s blk sz file line = .ok (p, s1) → Reachable s1
  | calloc {s s1 : State} {blk nmemb sz file p : Nat} {line : Int} :
      Reachable s → nmemb < WORD → sz < WORD →
      base_malloc_ok s (uadd (uadd (umul nmemb sz) sizeof_metadata) 16) blk →
      m61_calloc s blk nmemb sz file line = .ok (p, s1) → Reachable s1
  | free {s s1 : State} {ptr file : Nat} {line : Int} :
      Reachable s → ptr < WORD →
      m61_free s ptr file line = .ok s1 → Reachable s1
  | write {s : State} (a v : Nat) :
      Reachable s → v < 256 → Reachable (write_byte s a v)

/-- The invariant of the reachable states, for the list `l` of the registered headers. -/
structure Inv (s : State) (l : List Nat) : Prop where
  base_ne : s.base_meta_addr ≠ 0
  link : linked s.mem s.base_meta_addr l
  nodup : l.Nodup
  base_notin : s.base_meta_addr ∉ l
  tagged : ∀ a ∈ l, (s.mem a).id = id_tag ∧ (s.mem a).unfreed = unfreed_id
  only : ∀ a, (s.mem a).id = id_tag → (s.mem a).unfreed = unfreed_id → a ∈ l
  count : s.global_stats.nactive = l.length
  total : s.global_stats.active_size = (l.map fun a => (s.mem a).size).sum
  bound : s.global_stats.active_size + sizeof_metadata + 1024 < SIZE_MAX
  fits : ∀ a ∈ l, a % 16 = 0 ∧ a + sizeof_metadata + (s.mem a).size + 16 ≤ WORD
  bounds : ∀ a ∈ l, s.global_stats.heap_min ≤ a + sizeof_metadata ∧
    a + sizeof_metadata + (s.mem a).size ≤ s.global_stats.heap_max
  heap_set : l ≠ [] → s.global_stats.heap_min ≠ 0
  live : ∀ a ∈ l, (a, (s.mem a).size + sizeof_metadata + 16) ∈ outstanding s.base_calls
  typed : s.global_stats.ntotal < WORD ∧ s.global_stats.total_size < WORD ∧
    s.global_stats.nfail < WORD ∧ s.global_stats.fail_size < WORD ∧
    s.global_stats.heap_min < WORD ∧ s.global_stats.heap_max < WORD

/-- The state `s1` after a call `m61_malloc(sz, file, line)` of state `s` that got the
block `blk` from `base_malloc`, field by field. -/
structure malloc_post (s : State) (blk sz file : Nat) (line : Int) (s1 : State) : Prop where
  base : s1.base_meta_addr = s.base_meta_addr
  mem_blk : s1.mem blk =
    ⟨file, line, sz, id_tag, unfreed_id, (s.mem s.base_meta_addr).next, s.base_meta_addr⟩
  mem_base : s1.mem s.base_meta_addr = { s.mem s.base_meta_addr with next := blk }
  mem_other : ∀ a, a ≠ blk → a ≠ s.base_meta_addr →
    s1.mem a = if a = (s.mem s.base_meta_addr).next ∧ a ≠ 0 then { s.mem a with last := blk }
      else s.mem a
  bytes : s1.bytes = Function.update s.bytes (uadd (uadd blk sizeof_metadata) sz) idc
  nactive : s1.global_stats.nactive = uadd s.global_stats.nactive 1
  active_size : s1.global_stats.active_size = uadd s.global_stats.active_size sz
  ntotal : s1.global_stats.ntotal = uadd s.global_stats.ntotal 1
  total_size : s1.global_stats.total_size = uadd s.global_stats.total_size sz
  nfail : s1.global_stats.nfail = s.global_stats.nfail
  fail_size : s1.global_stats.fail_size = s.global_stats.fail_size
  heap_min : s1.global_stats.heap_min =
    if uadd blk sizeof_metadata < s.global_stats.heap_min ∨ s.global_stats.heap_min = 0 then
      uadd blk sizeof_metadata
    else s.global_stats.heap_min
  heap_max : s1.global_stats.heap_max =
    if uadd (uadd blk sizeof_metadata) sz > s.global_stats.heap_max ∨
        s1.global_stats.heap_min = 0 then
      uadd (uadd blk sizeof_metadata) sz
    else s.global_stats.heap_max
  hhvec : s1.hhvec = s.hhvec ++ [⟨(file, line), sz⟩]
  out : s1.out = s.out
  base_calls : s1.base_calls =
    s.base_calls ++ [.malloc (uadd (uadd sz sizeof_metadata) 16) blk]


/-- The call `m61_free(ptr, ...)` in state `s` passes the null, range, alignment, tag,
marker and canary checks, and so reaches the part that unlinks the header. -/
def free_passes (s : State) (ptr : Nat) : Prop :=
  ptr ≠ 0 ∧ s.global_stats.heap_min ≤ ptr ∧ ptr ≤ s.global_stats.heap_max ∧ ptr % 8 = 0 ∧
  (s.mem (usub ptr sizeof_metadata)).id = id_tag ∧
  (s.mem (usub ptr sizeof_metadata)).unfreed = unfreed_id ∧
  s.bytes (uadd ptr (s.mem (usub ptr sizeof_metadata)).size) = idc

instance (s : State) (ptr : Nat) : Decidable (free_passes s ptr) := by
  unfold free_passes; infer_instance

/-- The state `s1` after a call of `m61_free` that has unlinked the header at `m`,
field by field. -/
structure free_post (s : State) (m : Nat) (s1 : State) : Prop where
  base : s1.base_meta_addr = s.base_meta_addr
  mem_m : s1.mem m = { s.mem m with unfreed := 0 }
  mem_last : s1.mem (s.mem m).last = { s.mem (s.mem m).last with next := (s.mem m).next }
  mem_next : (s.mem m).next ≠ 0 →
    s1.mem (s.mem m).next = { s.mem (s.mem m).next with last := (s.mem m).last }
  mem_other : ∀ a, a ≠ m → a ≠ (s.mem m).last → (a ≠ (s.mem m).next ∨ a = 0) →
    s1.mem a = s.mem a
  bytes : s1.bytes = s.bytes
  nactive : s1.global_stats.nactive = usub s.global_stats.nactive 1
  active_size : s1.global_stats.active_size = usub s.global_stats.active_size (s.mem m).size
  ntotal : s1.global_stats.ntotal = s.global_stats.ntotal
  total_size : s1.global_stats.total_size = s.global_stats.total_size
  nfail : s1.global_stats.nfail = s.global_stats.nfail
  fail_size : s1.global_stats.fail_size = s.global_stats.fail_size
  heap_min : s1.global_stats.heap_min = s.global_stats.heap_min
  heap_max : s1.global_stats.heap_max = s.global_stats.heap_max
  hhvec : s1.hhvec = s.hhvec
  base_calls : s1.base_calls = s.base_calls ++ [.free m]

/-- The states `s` and `s1` differ at most in what has been printed. -/
def same_but_out (s s1 : State) : Prop :=
  s1.base_meta_addr = s.base_meta_addr ∧ s1.mem = s.mem ∧ s1.bytes = s.bytes ∧
  s1.global_stats = s.global_stats ∧ s1.hhvec = s.hhvec ∧ s1.base_calls = s.base_calls

/-- What a header records of an allocation, the two link fields aside. -/
def record_of (h : metadata) : Nat × Int × Nat × Nat × Int :=
  (h.file, h.line, h.size, h.id, h.unfreed)

/-! ## Concrete states, for the examples -/

/-- A memory with no header in it. -/
def ex_mem0 : Nat → metadata := fun _ => ⟨0, 0, 0, 0, 0, 0, 0⟩

/-- A start state: `base_meta` lies at address `4096`, all bytes are zero. -/
def ex_state0 : State := initial 4096 ex_mem0 (fun _ => 0)

/-- The state after `m61_malloc(8, file 1, line 10)` in `ex_state0`, with the block at
`65536` from `base_malloc`. -/
def ex_state1 : State :=
  match m61_malloc ex_state0 65536 8 1 10 with
  | .ok r => r.2
  | .error _ => ex_state0

/-- A state whose log holds 80 bytes allocated at site `(1, 10)` and 20 bytes at site
`(2, 20)`. -/
def ex_log_80_20 : State :=
  { ex_state0 with hhvec := [⟨(1, 10), 80⟩, ⟨(2, 20), 20⟩] }

/-- A state whose log holds 50 bytes allocated at each of the sites `(1, 10)` and
`(2, 20)`. -/
def ex_log_50_50 : State :=
  { ex_state0 with hhvec := [⟨(1, 10), 50⟩, ⟨(2, 20), 50⟩] }

/-! ## Sequences of calls -/

/-- The state after the call `m61_malloc(sz, file, line)` that gets the block `blk`
(the state before, when the call does not return). -/
def state_after_malloc (s : State) (blk sz file : Nat) (line : Int) : State :=
  match m61_malloc s blk sz file line with
  | .error _ => s
  | .ok (_, s1) => s1

/-- The assumption on the underlying allocator along a sequence of calls
`m61_malloc(0, ...)`: each call gets a block that is not null and is as `base_malloc_ok`
says, in the state the call is made in. -/
def blocks_ok : State → List (Nat × Nat × Int) → Prop
  | _, [] => True
  | s, (blk, file, line) :: rest =>
    blk ≠ 0 ∧ base_malloc_ok s (uadd (uadd 0 sizeof_metadata) 16) blk ∧
    blocks_ok (state_after_malloc s blk 0 file line) rest

/-- Whether `blocks_ok` holds is computed along the sequence. -/
def blocks_ok_dec : (reqs : List (Nat × Nat × Int)) → (s : State) → Decidable (blocks_ok s reqs)
  | [], _ => isTrue trivial
  | (blk, file, line) :: rest, s =>
    have := blocks_ok_dec rest (state_after_malloc s blk 0 file line)
    inferInstanceAs (Decidable (blk ≠ 0 ∧ base_malloc_ok s (uadd (uadd 0 sizeof_metadata) 16) blk ∧
      blocks_ok (state_after_malloc s blk 0 file line) rest))

instance (s : State) (reqs : List (Nat × Nat × Int)) : Decidable (blocks_ok s reqs) :=
  blocks_ok_dec reqs s

/-! ## The record of the allocations made so far -/

/-- A successful allocation: the payload pointer returned, the call site and the
requested size. -/
structure Alloc where
  ptr : Nat
  file : Nat
  line : Int
  size : Nat
deriving DecidableEq, Repr

/-- What has happened so far, as the caller sees it: the number `nalloc` of successful
allocations, the number `nfree` of releases that passed all checks, the allocations
`ever` made, and the allocations `live` made and not released (latest first). -/
structure Ghost where
  nalloc : Nat
  nfree : Nat
  ever : List Alloc
  live : List Alloc

/-- The record after an allocation call of size `sz` at `file:line` that returned `p`:
a null result is no allocation. -/
def ghost_alloc (g : Ghost) (p file : Nat) (line : Int) (sz : Nat) : Ghost :=
  if p = 0 then g
  else
    { nalloc := g.nalloc + 1
      nfree := g.nfree
      ever := ⟨p, file, line, sz⟩ :: g.ever
      live := ⟨p, file, line, sz⟩ :: g.live }

/-- The record after a call `m61_free(ptr)` made in state `s`: a call that passes all
checks releases the allocation with payload `ptr`. -/
def ghost_free (g : Ghost) (s : State) (ptr : Nat) : Ghost :=
  if free_passes s ptr then
    { nalloc := g.nalloc
      nfree := g.nfree + 1
      ever := g.ever
      live := g.live.filter (fun e => decide (e.ptr ≠ ptr)) }
  else g

/-- The reachable states together with the record of the allocations that led to
them: the same steps as `Reachable`. -/
inductive History : State → Ghost → Prop
  | init (B : Nat) (mem0 : Nat → metadata) (bytes0 : Nat → Nat) :
      B ≠ 0 → B + sizeof_metadata ≤ WORD →
      (∀ a, ¬ ((mem0 a).id = id_tag ∧ (mem0 a).unfreed = unfreed_id)) →
      History (initial B mem0 bytes0) ⟨0, 0, [], []⟩
  | malloc {s s1 : State} {g : Ghost} {blk sz file p : Nat} {line : Int} :
      History s g → sz < WORD →
      base_malloc_ok s (uadd (uadd sz sizeof_metadata) 16) blk →
      m61_malloc s blk sz file line = .ok (p, s1) →
      History s1 (ghost_alloc g p file line sz)
  | calloc {s s1 : State} {g : Ghost} {blk nmemb sz file p : Nat} {line : Int} :
      History s g → nmemb < WORD → sz < WORD →
      base_malloc_ok s (uadd (uadd (umul nmemb sz) sizeof_metadata) 16) blk →
      m61_calloc s blk nmemb sz file line = .ok (p, s1) →
      History s1 (ghost_alloc g p file line (umul nmemb sz))
  | free {s s1 : State} {g : Ghost} {ptr file : Nat} {line : Int} :
      History s g → ptr < WORD →
      m61_free s ptr file line = .ok s1 → History s1 (ghost_free g s ptr)
  | write {s : State} {g : Ghost} (a v : Nat) :
      History s g → v < 256 → History (write_byte s a v) g

/-- The allocation that the header at `a` stands for. -/
def alloc_of (s : State) (a : Nat) : Alloc :=
  ⟨a + sizeof_metadata, (s.mem a).file, (s.mem a).line, (s.mem a).size⟩

/-- The line that `m61_print_leak_report` prints for an allocation. -/
def leak_line (e : Alloc) : Diag := .leak e.file e.line e.ptr (to_signed e.size)

/-- The invariant that ties the record of the allocations to the state: the live
allocations are the registered headers, in order, and every pointer ever returned lies
within the heap bounds. -/
structure HInv (s : State) (g : Ghost) (l : List Nat) : Prop where
  inv : Inv s l
  live : g.live = l.map (alloc_of s)
  count : g.nalloc = g.nfree + g.live.length
  ever : ∀ e ∈ g.ever, e.ptr ≠ 0 ∧ s.global_stats.heap_min ≤ e.ptr ∧
    e.ptr + e.size ≤ s.global_stats.heap_max
  first : g.ever ≠ [] → s.global_stats.heap_min ≠ 0

/-- The state after `m61_malloc(16, file 1, line 11)` in `ex_state1`, with the block at
`131072` from `base_malloc`: two live allocations. -/
def ex_state2 : State := state_after_malloc ex_state1 131072 16 1 11

/-- The state after `m61_free(65592, file 2, line 20)` in `ex_state2`: the first of two
allocations released. -/
def ex_state3 : State :=
  match m61_free ex_state2 65592 2 20 with
  | .error _ => ex_state2
  | .ok s => s

/-- The record of the two allocations and the release that lead to `ex_state3`. -/
def ex_ghost3 : Ghost :=
  ⟨2, 1, [⟨131128, 1, 11, 16⟩, ⟨65592, 1, 10, 8⟩], [⟨131128, 1, 11, 16⟩]⟩

/-- The state `ex_state2` (two live allocations, the later one linked first) after the
`last` field of the header of the earlier allocation, the eight bytes before its payload,
has been overwritten. -/
def ex_corrupt : State :=
  { ex_state2 with
    mem := Function.update ex_state2.mem 65536 { ex_state2.mem 65536 with last := 1 } }

/-! ## Stores of the caller that reach headers, and the histories without them -/

/-- The caller stores at address `a` the 56 bytes that read as the `metadata` object
`h`. -/
def write_image (s : State) (a : Nat) (h : metadata) : State :=
  { s with mem := Function.update s.mem a h }

/-- One call of the underlying allocator, for the question whether the header at `a` of
a released block still lies in memory as `m61_free` left it: it does after `base_free(a)`
and no longer does once `base_malloc` has handed out a block that overlaps its 56 bytes. -/
def released_step (a : Nat) (b : Bool) : BaseCall → Bool
  | .free p => if p = a then true else b
  | .malloc n ret => if ret ≠ 0 ∧ ret < a + sizeof_metadata ∧ a < ret + n then false else b

/-- The header at `a` belongs to a block that was given back by `base_free(a)`, and no
block handed out since overlaps it. -/
def released_intact (calls : List BaseCall) (a : Nat) : Bool :=
  calls.foldl (released_step a) false

/-- The pointers that a caller passes to `m61_free` without making it read, as a header,
bytes that are not one: the null pointer, a pointer outside the heap bounds or not
8-byte aligned (rejected before the header is read), the payload pointer of a block
handed out and not given back, and the payload pointer of a released block whose header
is intact. -/
def free_allowed (s : State) (ptr : Nat) : Prop :=
  ptr = 0 ∨ ptr < s.global_stats.heap_min ∨ ptr > s.global_stats.heap_max ∨ ptr % 8 ≠ 0 ∨
  (∃ e ∈ outstanding s.base_calls, e.1 = usub ptr sizeof_metadata) ∨
  released_intact s.base_calls (usub ptr sizeof_metadata) = true

instance (s : State) (ptr : Nat) : Decidable (free_allowed s ptr) := by
  unfold free_allowed; infer_instance

/-- The addresses that a caller stores to without overwriting a header: the bytes of a
block handed out and not given back, after the 56 bytes of its header (the payload, the
canary byte and the rest of the block). -/
def store_allowed (s : State) (a : Nat) : Prop :=
  ∃ e ∈ outstanding s.base_calls, e.1 + sizeof_metadata ≤ a ∧ a < e.1 + e.2

instance (s : State) (a : Nat) : Decidable (store_allowed s a) := by
  unfold store_allowed; infer_instance

/-- What is known of the headers in a state whose registered headers are `l`: every block
handed out and not given back carries a registered header, and every released header
that is intact carries the tag and the cleared marker and is neither registered nor the
sentinel. -/
def headers_known (s : State) (l : List Nat) : Prop :=
  (∀ e ∈ outstanding s.base_calls, e.1 ∈ l) ∧
  (∀ a, released_intact s.base_calls a = true →
    (s.mem a).id = id_tag ∧ (s.mem a).unfreed = 0 ∧ a ∉ l ∧ a ≠ s.base_meta_addr)

/-- The histories of a caller that keeps to its blocks: the steps of `History`, where
every pointer passed to `m61_free` is `free_allowed` and every store goes to an address
that is `store_allowed`. In such a history `m61_free` reads as headers only bytes that
the allocator wrote as headers (`disciplined_free_reads_header`), so the two views of
memory agree with a real run. -/
inductive Disciplined : State → Ghost → Prop
  | init (B : Nat) (mem0 : Nat → metadata) (bytes0 : Nat → Nat) :
      B ≠ 0 → B + sizeof_metadata ≤ WORD →
      (∀ a, ¬ ((mem0 a).id = id_tag ∧ (mem0 a).unfreed = unfreed_id)) →
      Disciplined (initial B mem0 bytes0) ⟨0, 0, [], []⟩
  | malloc {s s1 : State} {g : Ghost} {blk sz file p : Nat} {line : Int} :
      Disciplined s g → sz < WORD →
      base_malloc_ok s (uadd (uadd sz sizeof_metadata) 16) blk →
      m61_malloc s blk sz file line = .ok (p, s1) →
      Disciplined s1 (ghost_alloc g p file line sz)
  | calloc {s s1 : State} {g : Ghost} {blk nmemb sz file p : Nat} {line : Int} :
      Disciplined s g → nmemb < WORD → sz < WORD →
      base_malloc_ok s (uadd (uadd (umul nmemb sz) sizeof_metadata) 16) blk →
      m61_calloc s blk nmemb sz file line = .ok (p, s1) →
      Disciplined s1 (ghost_alloc g p file line (umul nmemb sz))
  | free {s s1 : State} {g : Ghost} {ptr file : Nat} {line : Int} :
      Disciplined s g → ptr < WORD → free_allowed s ptr →
      m61_free s ptr file line = .ok s1 → Disciplined s1 (ghost_free g s ptr)
  | write {s : State} {g : Ghost} (a v : Nat) :
      Disciplined s g → v < 256 → store_allowed s a → Disciplined (write_byte s a v) g

/-- Two live allocations of 64 bytes: `m61_malloc(64, file 1, line 10)` with the block at
`65536` (payload `65592 .. 65655`), then `m61_malloc(64, file 2, line 20)` with the block
at `65680` (payload `65736 .. 65799`). -/
def ex_pair : State :=
  state_after_malloc (state_after_malloc ex_state0 65536 64 1 10) 65680 64 2 20

/-- The caller of `ex_pair` has stored, in the first 56 bytes of its first payload, the
image of a header of size 140 with the tag, the live marker and null links, and the
character `'Z'` at `65788` (`65592 + 56 + 140`), a byte of its second payload. No header
and no canary written by the allocator is touched. -/
def ex_forged : State :=
  write_byte (write_image ex_pair 65592 ⟨0, 0, 140, id_tag, unfreed_id, 0, 0⟩) 65788 idc

/-- The state after `m61_free(65648, file 3, line 30)` in `ex_forged`: the pointer lies 56
bytes inside the first payload. -/
def ex_forged_freed : State :=
  match m61_free ex_forged 65648 3 30 with
  | .error _ => ex_forged
  | .ok s => s

/-- The state after the call `m61_free(ptr, file, line)` (the state before, when the
call does not return). -/
def state_after_free (s : State) (ptr file : Nat) (line : Int) : State :=
  match m61_free s ptr file line with
  | .error _ => s
  | .ok s1 => s1

/-- The state `ex_state3` (two allocations, the first released) after the caller has
stored a byte in the payload of the live allocation. -/
def ex_state4a : State := write_byte ex_state3 131130 7

/-- The state `ex_state4a` after `m61_free` of the pointer released before (a double
free). -/
def ex_state4b : State := state_after_free ex_state4a 65592 2 21

/-- The state `ex_state4b` after `m61_free` of a pointer that is not 8-byte aligned. -/
def ex_state4c : State := state_after_free ex_state4b 131129 2 22

/-- The state `ex_state4c` after `m61_free` of a pointer below the heap. -/
def ex_state4d : State := state_after_free ex_state4c 8 2 23

/-- The state `ex_state4d` after the caller has overwritten the canary byte of the live
allocation (payload `131128`, size 16). -/
def ex_state4e : State := write_byte ex_state4d 131144 0

/-- The state `ex_state4e` after `m61_free` of the live allocation, which the canary
check rejects. -/
def ex_state4 : State := state_after_free ex_state4e 131128 2 24

/-! ## The parts of the heavy-hitter report -/

/-- What the library promises of `std::sort` with the comparator `less`, for the function
`sort1` from the vector before the call to the vector after it: a rearrangement in which
no element is `less` than an earlier one. The order of elements of which neither is
`less` than the other is left to the library. -/
def sorts_by (less : hhstruct → hhstruct → Bool)
    (sort1 : List hhstruct → List hhstruct) : Prop :=
  ∀ l, (sort1 l).Perm l ∧ (sort1 l).Pairwise (fun a b => less b a = false)

/-- The first part of `m61_print_heavy_hitter_report`: the log sorted with `lineCompare`
and grouped, the list `result` as it is before `std::sort(..., sizeCompare)`. -/
def hh_grouped (sort : (hhstruct → hhstruct → Bool) → List hhstruct → List hhstruct)
    (oob : Option hhstruct) (hhvec : List hhstruct) : Except Fault (List hhstruct) :=
  let hv := sort lineCompare hhvec
  match vec_at oob hv 0 with
  | .error e => .error e
  | .ok h0 =>
    match group_rounds hv.length with
    | none => .error .diverges
    | some n => group_loop oob hv n 1 [h0]

/-- One round of the grouping loop on the list `result` built so far, for the sample
`h`: added to the last group when the keys are equal, a group of its own otherwise. -/
def group_step (result : List hhstruct) (h : hhstruct) : List hhstruct :=
  match result.getLast? with
  | none => [h]
  | some b =>
    if h.file_line = b.file_line then
      result.dropLast ++ [{ b with size := uadd b.size h.size }]
    else result ++ [h]

/-- The sum of the sizes of the samples of `log` with the key `k`. -/
def key_sum (log : List hhstruct) (k : Nat × Int) : Nat :=
  ((log.filter fun h => decide (h.file_line = k)).map fun h => h.size).sum

/-- The order of the keys that `lineCompare` tests: by address of the file name, then by
line. -/
def key_lt (k1 k2 : Nat × Int) : Prop :=
  k1.1 < k2.1 ∨ (k1.1 = k2.1 ∧ k1.2 < k2.2)

/-- The list `result` is the grouping of the samples `pre`: it is not empty, its keys
are in strictly increasing order, they are the keys of `pre`, and the size of each group
is the sum, in 64-bit arithmetic, of the sizes of the samples of `pre` with its key. -/
def groups_of (pre result : List hhstruct) : Prop :=
  result ≠ [] ∧
  (result.map fun g => g.file_line).Pairwise key_lt ∧
  (∀ g ∈ result, g.size = key_sum pre g.file_line % WORD) ∧
  (∀ g ∈ result, g.file_line ∈ pre.map fun h => h.file_line) ∧
  (∀ h ∈ pre, h.file_line ∈ result.map fun g => g.file_line)

/-- The test `percent >= 20` of the printing loop for the element `h`, with the grand
total `total`. -/
def is_heavy (total : F32) (h : hhstruct) : Bool :=
  F32.ge_nat (percent_of h total) 20

/-- The line that the printing loop prints for the element `h`. -/
def heavy_line (total : F32) (h : hhstruct) : Diag :=
  .heavy_hitter h.file_line.1 h.file_line.2 h.size (percent_of h total)

/-- The lines printed for the elements `hs`, visited in this order: a line for each
element that passes the test. -/
def heavy_lines (total : F32) (hs : List hhstruct) : List Diag :=
  (hs.filter (is_heavy total)).map (heavy_line total)

/-- The value of a `float` is the integer `n`. -/
def F32.is_nat : F32 → Nat → Bool
  | .fin m e, n => decide ((F32.toFrac m e).1 = n * (F32.toFrac m e).2)
  | _, _ => false

/-- A memory of file names in which the addresses `1` and `2` hold the same string
(the characters of `m.cc`), and every other address the empty string. -/
def ex_names : Nat → List Nat := fun a => if a = 1 ∨ a = 2 then [109, 46, 99, 99] else []

/-! ## Logs, for the examples of the report -/

/-- A log with 16777216 bytes allocated at site `(1, 10)` and one byte at site
`(2, 20)`. -/
def ex_log_big : List hhstruct := [⟨(1, 10), 16777216⟩, ⟨(2, 20), 1⟩]

/-- A log with 8 bytes allocated at line 10 of each of the file-name addresses `1` and
`2`. -/
def ex_log_two_names : List hhstruct := [⟨(1, 10), 8⟩, ⟨(2, 10), 8⟩]

/-- A log with three samples at two sites. -/
def ex_log_three : List hhstruct := [⟨(2, 20), 5⟩, ⟨(1, 10), 8⟩, ⟨(2, 20), 7⟩]

/-! ## Arithmetic of the 64-bit operations -/

theorem uadd_eq {a b : Nat} (h : a + b < WORD) : uadd a b = a + b := by
  unfold uadd; exact Nat.mod_eq_of_lt h

theorem uadd_lt (a b : Nat) : uadd a b < WORD := by
  unfold uadd WORD; omega

theorem usub_eq {a b : Nat} (hb : b ≤ a) : usub a b = a - b := by
  unfold usub; rw [if_pos hb]

theorem usub_lt {a : Nat} (b : Nat) (ha : a < WORD) : usub a b < WORD := by
  unfold usub WORD at *; split_ifs <;> omega

theorem usub_uadd_cancel {a b : Nat} (ha : a < WORD) (hb : b < WORD) :
    usub (uadd a b) b = a := by
  unfold usub uadd WORD at *; split_ifs <;> omega

theorem size_limit_eq {a : Nat} (h : a + sizeof_metadata + 1024 ≤ SIZE_MAX) :
    size_limit a = SIZE_MAX - a - sizeof_metadata - 1024 := by
  unfold size_limit
  unfold sizeof_metadata at *
  rw [usub_eq (a := SIZE_MAX) (b := a) (by omega), usub_eq (b := 56) (by omega),
    usub_eq (b := 1024) (by omega)]

/-! ## The linked list of headers -/

theorem linked_congr {m m1 : Nat → metadata} :
    ∀ (l : List Nat) (prev : Nat),
      (∀ x, x = prev ∨ x ∈ l → (m1 x).next = (m x).next) →
      (∀ x ∈ l, (m1 x).last = (m x).last) →
      linked m prev l → linked m1 prev l
  | [], prev, hn, _, h => by
    simp only [linked] at *
    rw [hn prev (Or.inl rfl)]; exact h
  | a :: l, prev, hn, hl, h => by
    simp only [linked] at *
    obtain ⟨h1, h2, h3, h4⟩ := h
    refine ⟨by rw [hn prev (Or.inl rfl)]; exact h1, h2, ?_, ?_⟩
    · rw [hl a (List.mem_cons_self _ _)]; exact h3
    · exact linked_congr l a
        (fun x hx => hn x (hx.elim (fun e => Or.inr (e ▸ List.mem_cons_self _ _))
          (fun e => Or.inr (List.mem_cons_of_mem _ e))))
        (fun x hx => hl x (List.mem_cons_of_mem _ hx)) h4

theorem linked_ne_zero {m : Nat → metadata} :
    ∀ (l : List Nat) (prev : Nat), linked m prev l → ∀ a ∈ l, a ≠ 0
  | [], _, _, a, ha => by simp at ha
  | b :: l, prev, h, a, ha => by
    simp only [linked] at h
    rcases List.mem_cons.1 ha with e | e
    · rw [e]; exact h.2.1
    · exact linked_ne_zero l b h.2.2.2 a e

theorem m61_malloc_ok (s : State) (blk sz file : Nat) (line : Int)
    (hg : sz < size_limit s.global_stats.active_size) (hb : blk ≠ 0)
    (hB : blk ≠ s.base_meta_addr) (hh : (s.mem s.base_meta_addr).next ≠ blk)
    (hhB : (s.mem s.base_meta_addr).next ≠ s.base_meta_addr) :
    ∃ s1, m61_malloc s blk sz file line = .ok (uadd blk sizeof_metadata, s1) ∧
      malloc_post s blk sz file line s1 := by
  have hg1 : ¬ sz ≥ size_limit s.global_stats.active_size := Nat.not_le.2 hg
  have hB1 : s.base_meta_addr ≠ blk := fun e => hB e.symm
  refine ⟨_, by simp only [m61_malloc, hg1, hb, if_false]; rfl, ?_⟩
  constructor
  · rfl
  · by_cases h0 : (s.mem s.base_meta_addr).next = 0
    · simp [Function.update, hB1, hB, h0]
    · simp [Function.update, hB1, hB, h0, hh, Ne.symm hh]
  · by_cases h0 : (s.mem s.base_meta_addr).next = 0
    · simp [Function.update, hB1, hB, h0]
    · simp [Function.update, hB1, hB, h0, hh, Ne.symm hh, hhB, Ne.symm hhB]
  · intro a ha haB
    by_cases h0 : (s.mem s.base_meta_addr).next = 0
    · simp [Function.update, hB1, hB, h0, ha, haB]
    · by_cases h1 : a = (s.mem s.base_meta_addr).next
      · subst h1
        simp [Function.update, hB1, hB, h0, hh, Ne.symm hh, ha, haB]
      · simp [Function.update, hB1, hB, h0, hh, Ne.symm hh, h1, ha, haB]
  · rfl
  · simp only []; split_ifs <;> rfl
  · simp only []; split_ifs <;> rfl
  · simp only []; split_ifs <;> rfl
  · simp only []; split_ifs <;> rfl
  · simp only []; split_ifs <;> rfl
  · simp only []; split_ifs <;> rfl
  · simp only []; split_ifs <;> simp_all
  · simp only []; split_ifs <;> simp_all
  · rfl
  · rfl
  · rfl

theorem m61_free_frame {s s1 : State} {ptr file : Nat} {line : Int}
    (hp : ¬ free_passes s ptr) (h : m61_free s ptr file line = .ok s1) :
    same_but_out s s1 := by
  unfold m61_free at h
  simp only [] at h
  by_cases h1 : ptr = 0
  · rw [if_pos h1] at h
    injection h with h; subst h; exact ⟨rfl, rfl, rfl, rfl, rfl, rfl⟩
  rw [if_neg h1] at h
  by_cases h2 : ptr < s.global_stats.heap_min ∨ ptr > s.global_stats.heap_max
  · rw [if_pos h2] at h
    injection h with h; subst h; exact ⟨rfl, rfl, rfl, rfl, rfl, rfl⟩
  rw [if_neg h2] at h
  by_cases h3 : ptr % 8 ≠ 0 ∨ (s.mem (usub ptr sizeof_metadata)).id ≠ id_tag
  · rw [if_pos h3] at h
    generalize scan_inside s.mem ptr file (WORD + 1) (s.mem s.base_meta_addr).next = r at h
    cases r with
    | error e => simp at h
    | ok ds =>
      simp only [] at h
      injection h with h; subst h; exact ⟨rfl, rfl, rfl, rfl, rfl, rfl⟩
  rw [if_neg h3] at h
  by_cases h4 : (s.mem (usub ptr sizeof_metadata)).id = id_tag ∧
      wasFreed (s.mem (usub ptr sizeof_metadata)) = true
  · rw [if_pos h4] at h
    injection h with h; subst h; exact ⟨rfl, rfl, rfl, rfl, rfl, rfl⟩
  rw [if_neg h4] at h
  by_cases h5 : s.bytes (uadd ptr (s.mem (usub ptr sizeof_metadata)).size) ≠ idc
  · rw [if_pos h5] at h
    injection h with h; subst h; exact ⟨rfl, rfl, rfl, rfl, rfl, rfl⟩
  exfalso
  apply hp
  simp only [wasFreed, decide_eq_true_eq, not_and, not_or, not_not, not_lt] at h2 h3 h4 h5
  exact ⟨h1, h2.1, h2.2, h3.1, h3.2, h4 h3.2, h5⟩

theorem m61_free_unlink (s : State) (ptr file : Nat) (line : Int) (hp : free_passes s ptr)
    (hl0 : (s.mem (usub ptr sizeof_metadata)).last ≠ 0)
    (hlm : (s.mem (usub ptr sizeof_metadata)).last ≠ usub ptr sizeof_metadata)
    (hnm : (s.mem (usub ptr sizeof_metadata)).next ≠ usub ptr sizeof_metadata)
    (hnl : (s.mem (usub ptr sizeof_metadata)).next ≠ (s.mem (usub ptr sizeof_metadata)).last) :
    ∃ s1, m61_free s ptr file line = .ok s1 ∧ free_post s (usub ptr sizeof_metadata) s1 ∧
      s1.out = if (s.mem (usub ptr sizeof_metadata)).next ≠ 0 ∧
          (s.mem (s.mem (usub ptr sizeof_metadata)).next).last ≠ usub ptr sizeof_metadata then
        s.out ++ [.not_allocated file line ptr] else s.out := by
  obtain ⟨h1, h2, h3, h4, h5, h6, h7⟩ := hp
  have e2 : ¬ (ptr < s.global_stats.heap_min ∨ ptr > s.global_stats.heap_max) := by omega
  have e3 : ¬ (ptr % 8 ≠ 0 ∨ (s.mem (usub ptr sizeof_metadata)).id ≠ id_tag) := by
    simp [h4, h5]
  have e4 : ¬ ((s.mem (usub ptr sizeof_metadata)).id = id_tag ∧
      wasFreed (s.mem (usub ptr sizeof_metadata)) = true) := by
    simp [wasFreed, h6]
  have e5 : ¬ (s.bytes (uadd ptr (s.mem (usub ptr sizeof_metadata)).size) ≠ idc) := by
    simp [h7]
  refine ⟨_, by unfold m61_free; simp only []; rw [if_neg h1, if_neg e2, if_neg e3, if_neg e4, if_neg e5], ?_, rfl⟩
  generalize usub ptr sizeof_metadata = m at *
  constructor
  · rfl
  · by_cases h0 : (s.mem m).next = 0
    · simp [Function.update, h0, hl0, hlm, Ne.symm hlm]
    · simp [Function.update, h0, hl0, hlm, Ne.symm hlm, hnm, Ne.symm hnm, hnl, Ne.symm hnl]
  · by_cases h0 : (s.mem m).next = 0
    · simp [Function.update, h0, hl0, hlm, Ne.symm hlm]
    · simp [Function.update, h0, hl0, hlm, Ne.symm hlm, hnm, Ne.symm hnm, hnl, Ne.symm hnl]
  · intro h0
    simp [Function.update, h0, hl0, hlm, Ne.symm hlm, hnm, Ne.symm hnm, hnl, Ne.symm hnl]
  · intro a ha hal han
    by_cases h0 : (s.mem m).next = 0
    · simp [Function.update, h0, hl0, hlm, Ne.symm hlm, ha, hal]
    · have han1 : a ≠ (s.mem m).next := by
        rcases han with h | h
        · exact h
        · intro e; exact h0 (e ▸ h)
      simp [Function.update, h0, hl0, hlm, Ne.symm hlm, hnm, Ne.symm hnm, hnl, Ne.symm hnl,
        ha, hal, han1]
  · rfl
  · rfl
  · by_cases h0 : (s.mem m).next = 0
    · simp [Function.update, h0, hl0, hlm, Ne.symm hlm]
    · simp [Function.update, h0, hl0, hlm, Ne.symm hlm, hnm, Ne.symm hnm, hnl, Ne.symm hnl]
  all_goals simp

theorem linked_last_mem {m : Nat → metadata} {x : Nat} {l2 : List Nat} :
    ∀ (l1 : List Nat) (prev : Nat), linked m prev (l1 ++ x :: l2) →
      (l1 = [] → (m x).last = prev) ∧ (l1 ≠ [] → (m x).last ∈ l1)
  | [], prev, h => by
    simp only [List.nil_append, linked] at h
    exact ⟨fun _ => h.2.2.1, fun e => absurd rfl e⟩
  | c :: l1, prev, h => by
    simp only [List.cons_append, linked] at h
    have ih := linked_last_mem l1 c h.2.2.2
    refine ⟨fun e => by simp at e, fun _ => ?_⟩
    by_cases e : l1 = []
    · rw [ih.1 e]; exact List.mem_cons_self _ _
    · exact List.mem_cons_of_mem _ (ih.2 e)

theorem linked_next_mem {m : Nat → metadata} {x : Nat} {l2 : List Nat} :
    ∀ (l1 : List Nat) (prev : Nat), linked m prev (l1 ++ x :: l2) →
      (l2 = [] → (m x).next = 0) ∧ (l2 ≠ [] → (m x).next ∈ l2 ∧ (m x).next ≠ 0)
  | [], prev, h => by
    simp only [List.nil_append, linked] at h
    cases l2 with
    | nil => simp only [linked] at h; exact ⟨fun _ => h.2.2.2, fun e => absurd rfl e⟩
    | cons b l2 =>
      simp only [linked] at h
      refine ⟨fun e => by simp at e, fun _ => ?_⟩
      rw [h.2.2.2.1]; exact ⟨List.mem_cons_self _ _, h.2.2.2.2.1⟩
  | c :: l1, prev, h => by
    simp only [List.cons_append, linked] at h
    exact linked_next_mem l1 c h.2.2.2

theorem linked_tail {m : Nat → metadata} {x : Nat} {l2 : List Nat} :
    ∀ (l1 : List Nat) (prev : Nat), linked m prev (l1 ++ x :: l2) → linked m x l2
  | [], prev, h => by
    simp only [List.nil_append, linked] at h
    exact h.2.2.2
  | c :: l1, prev, h => by
    simp only [List.cons_append, linked] at h
    exact linked_tail l1 c h.2.2.2

theorem nodup_length_le {l : List Nat} {N : Nat} (hn : l.Nodup) (hl : ∀ a ∈ l, a < N) :
    l.length ≤ N := by
  have hs : l ⊆ List.range N := fun a ha => List.mem_range.2 (hl a ha)
  have := (List.subperm_of_subset hn hs).length_le
  simpa using this

theorem unlink_linked {m m1 : Nat → metadata} {x : Nat} {l2 : List Nat}
    (Hl : m1 (m x).last = { m (m x).last with next := (m x).next })
    (Hn : (m x).next ≠ 0 → m1 (m x).next = { m (m x).next with last := (m x).last })
    (Ho : ∀ a, a ≠ x → a ≠ (m x).last → (a ≠ (m x).next ∨ a = 0) → m1 a = m a) :
    ∀ (l1 : List Nat) (prev : Nat), linked m prev (l1 ++ x :: l2) →
      (prev :: (l1 ++ x :: l2)).Nodup → linked m1 prev (l1 ++ l2)
  | [], prev, h, hd => by
    have hh := h
    simp only [List.nil_append, linked] at h
    obtain ⟨h1, h2, h3, h4⟩ := h
    simp only [List.nil_append, List.nodup_cons, List.mem_cons, not_or] at hd
    cases l2 with
    | nil =>
      simp only [linked] at h4 ⊢
      rw [← h3, Hl]; exact h4
    | cons b l2 =>
      simp only [linked] at h4 ⊢
      obtain ⟨g1, g2, g3, g4⟩ := h4
      have hbx : b ≠ x := fun e => hd.2.1 (by rw [e]; exact List.mem_cons_self _ _) |>.elim
      have hbp : b ≠ prev := fun e => hd.1.2 (by rw [← e]; exact List.mem_cons_self _ _) |>.elim
      have hb1 : m1 b = { m b with last := prev } := by
        have := Hn (by rw [g1]; exact g2)
        rw [g1, h3] at this; exact this
      refine ⟨by rw [← h3, Hl]; exact g1, g2, by rw [hb1], ?_⟩
      apply linked_congr l2 b _ _ g4
      · intro y hy
        rcases hy with e | e
        · rw [e, hb1]
        · have hyx : y ≠ x := fun e1 => hd.2.1 (by rw [← e1]; exact List.mem_cons_of_mem _ e)
          have hyp : y ≠ prev := fun e1 => hd.1.2 (by rw [← e1]; exact List.mem_cons_of_mem _ e)
          have hyb : y ≠ b := fun e1 => by
            have := hd.2.2
            simp only [List.nodup_cons] at this
            exact this.1 (e1 ▸ e)
          rw [Ho y hyx (by rw [h3]; exact hyp) (Or.inl (by rw [g1]; exact hyb))]
      · intro y e
        have hyx : y ≠ x := fun e1 => hd.2.1 (by rw [← e1]; exact List.mem_cons_of_mem _ e)
        have hyp : y ≠ prev := fun e1 => hd.1.2 (by rw [← e1]; exact List.mem_cons_of_mem _ e)
        have hyb : y ≠ b := fun e1 => by
          have := hd.2.2
          simp only [List.nodup_cons] at this
          exact this.1 (e1 ▸ e)
        rw [Ho y hyx (by rw [h3]; exact hyp) (Or.inl (by rw [g1]; exact hyb))]
  | c :: l1, prev, h, hd => by
    have hlast := (linked_last_mem (c :: l1) prev h).2 (by simp)
    have hnext := linked_next_mem (c :: l1) prev h
    simp only [List.cons_append, linked] at h ⊢
    obtain ⟨h1, h2, h3, h4⟩ := h
    have hd1 : (c :: (l1 ++ x :: l2)).Nodup := (List.nodup_cons.1 hd).2
    have hpn : prev ∉ c :: (l1 ++ x :: l2) := (List.nodup_cons.1 hd).1
    have hcn : c ∉ l1 ++ x :: l2 := (List.nodup_cons.1 hd1).1
    have hdis : ∀ a ∈ c :: l1, a ∉ x :: l2 := by
      intro a ha hax
      have hd2 : ((c :: l1) ++ x :: l2).Nodup := hd1
      exact (List.nodup_append.1 hd2).2.2 ha hax
    -- the header at `prev` is not touched
    have hprev : m1 prev = m prev := by
      apply Ho
      · intro e; exact hpn (by rw [e]; simp)
      · intro e; apply hpn; rw [e]
        rcases List.mem_cons.1 hlast with e1 | e1
        · rw [e1]; exact List.mem_cons_self _ _
        · exact List.mem_cons_of_mem _ (List.mem_append_left _ e1)
      · by_cases e0 : l2 = []
        · by_cases ep : prev = 0
          · exact Or.inr ep
          · left; rw [hnext.1 e0]; exact ep
        · left; intro e; apply hpn; rw [e]
          exact List.mem_cons_of_mem _ (List.mem_append_right _
            (List.mem_cons_of_mem _ (hnext.2 e0).1))
    -- the `last` field of `c` is not touched
    have hc : (m1 c).last = (m c).last := by
      by_cases e1 : c = (m x).last
      · rw [e1, Hl]
      · rw [Ho c (fun e => hdis c (List.mem_cons_self _ _) (by rw [e]; simp)) e1 ?_]
        by_cases e0 : l2 = []
        · left; rw [hnext.1 e0]; exact h2
        · left; intro e
          exact hdis c (List.mem_cons_self _ _)
            (by rw [e]; exact List.mem_cons_of_mem _ (hnext.2 e0).1)
    exact ⟨by rw [hprev]; exact h1, h2, by rw [hc]; exact h3,
      unlink_linked Hl Hn Ho l1 c h4 hd1⟩

/-! ## The invariant of the reachable states -/

theorem outstanding_append (calls : List BaseCall) (c : BaseCall) :
    outstanding (calls ++ [c]) = outstanding_step (outstanding calls) c := by
  simp [outstanding, List.foldl_append]

theorem Inv_initial (B : Nat) (mem0 : Nat → metadata) (bytes0 : Nat → Nat) (hB : B ≠ 0)
    (h0 : ∀ a, ¬ ((mem0 a).id = id_tag ∧ (mem0 a).unfreed = unfreed_id)) :
    Inv (initial B mem0 bytes0) [] := by
  constructor
  · exact hB
  · simp [linked, initial]
  · exact List.nodup_nil
  · simp
  · simp
  · intro a h1 h2
    exfalso
    by_cases e : a = B
    · subst e; simp [initial, id_tag] at h1
    · simp only [initial, Function.update_noteq e] at h1 h2
      exact h0 a ⟨h1, h2⟩
  · rfl
  · rfl
  · simp [initial, sizeof_metadata, SIZE_MAX]
  · simp
  · simp
  · simp
  · simp
  · simp [initial, WORD]

theorem Inv_frame {s s1 : State} {l : List Nat} (h : Inv s l)
    (hb : s1.base_meta_addr = s.base_meta_addr) (hm : s1.mem = s.mem)
    (hc : s1.base_calls = s.base_calls)
    (h1 : s1.global_stats.nactive = s.global_stats.nactive)
    (h2 : s1.global_stats.active_size = s.global_stats.active_size)
    (h3 : s1.global_stats.heap_min = s.global_stats.heap_min)
    (h4 : s1.global_stats.heap_max = s.global_stats.heap_max)
    (h5 : s1.global_stats.ntotal < WORD ∧ s1.global_stats.total_size < WORD ∧
      s1.global_stats.nfail < WORD ∧ s1.global_stats.fail_size < WORD) :
    Inv s1 l := by
  obtain ⟨a1, a2, a3, a4, a5, a6, a7, a8, a9, a10, a11, a12, a13, a14⟩ := h
  constructor
  · rw [hb]; exact a1
  · rw [hb, hm]; exact a2
  · exact a3
  · rw [hb]; exact a4
  · rw [hm]; exact a5
  · rw [hm]; exact a6
  · rw [h1]; exact a7
  · rw [h2, hm]; exact a8
  · rw [h2]; exact a9
  · rw [hm]; exact a10
  · rw [hm, h3, h4]; exact a11
  · rw [h3]; exact a12
  · rw [hm, hc]; exact a13
  · rw [h3, h4]; exact ⟨h5.1, h5.2.1, h5.2.2.1, h5.2.2.2, a14.2.2.2.2.1, a14.2.2.2.2.2⟩

theorem Inv_same_but_out {s s1 : State} {l : List Nat} (h : Inv s l)
    (hs : same_but_out s s1) : Inv s1 l := by
  obtain ⟨b1, b2, _, b4, _, b6⟩ := hs
  apply Inv_frame h b1 b2 b6 <;> rw [b4]
  exact ⟨h.typed.1, h.typed.2.1, h.typed.2.2.1, h.typed.2.2.2.1⟩

theorem Inv_lt_word {s : State} {l : List Nat} (h : Inv s l) : ∀ a ∈ l, a + 72 ≤ WORD := by
  intro a ha
  have := (h.fits a ha).2
  unfold sizeof_metadata at this
  omega

theorem Inv_length {s : State} {l : List Nat} (h : Inv s l) : l.length + 72 ≤ WORD + 1 := by
  have h1 : l.length ≤ WORD - 71 := by
    apply nodup_length_le h.nodup
    intro a ha
    have := Inv_lt_word h a ha
    omega
  unfold WORD at *
  omega

/-- A request that passes the size check does not wrap around. -/
theorem guard_bound {s : State} {l : List Nat} (h : Inv s l) {sz : Nat}
    (hg : sz < size_limit s.global_stats.active_size) :
    s.global_stats.active_size + sz + sizeof_metadata + 1024 < SIZE_MAX := by
  have hb := h.bound
  rw [size_limit_eq (Nat.le_of_lt hb)] at hg
  omega

/-- A fresh block is none of the registered headers, nor the sentinel. -/
theorem fresh_block {s : State} {l : List Nat} (h : Inv s l) {n blk : Nat}
    (hok : base_malloc_ok s n blk) (hb : blk ≠ 0) (hn : 0 < n) :
    blk ≠ s.base_meta_addr ∧ blk ∉ l := by
  obtain ⟨_, _, h3, h4⟩ := hok hb
  constructor
  · intro e; rw [e] at h3; unfold sizeof_metadata at h3; omega
  · intro hm
    have := h4 _ (h.live blk hm)
    simp only at this
    unfold sizeof_metadata at this
    omega

theorem Inv_malloc {s s1 : State} {l : List Nat} {blk sz file : Nat} {line : Int}
    (h : Inv s l) (hg : sz < size_limit s.global_stats.active_size)
    (hok : base_malloc_ok s (uadd (uadd sz sizeof_metadata) 16) blk) (hb : blk ≠ 0)
    (hp : malloc_post s blk sz file line s1) : Inv s1 (blk :: l) := by
  have hgb := guard_bound h hg
  have hn : uadd (uadd sz sizeof_metadata) 16 = sz + sizeof_metadata + 16 := by
    unfold uadd sizeof_metadata SIZE_MAX WORD at *; omega
  rw [hn] at hok
  obtain ⟨hbB, hbl⟩ := fresh_block h hok hb (by unfold sizeof_metadata; omega)
  obtain ⟨k1, k2, k3, k4⟩ := hok hb
  have hptr : uadd blk sizeof_metadata = blk + sizeof_metadata := by
    unfold uadd sizeof_metadata WORD at *; omega
  have hptr2 : uadd (uadd blk sizeof_metadata) sz = blk + sizeof_metadata + sz := by
    rw [hptr]; unfold uadd sizeof_metadata WORD at *; omega
  -- headers of the old list keep everything but `last`
  have hold : ∀ a ∈ l, (s1.mem a).file = (s.mem a).file ∧ (s1.mem a).line = (s.mem a).line ∧
      (s1.mem a).size = (s.mem a).size ∧ (s1.mem a).id = (s.mem a).id ∧
      (s1.mem a).unfreed = (s.mem a).unfreed ∧ (s1.mem a).next = (s.mem a).next := by
    intro a ha
    have e1 : a ≠ blk := fun e => hbl (e ▸ ha)
    have e2 : a ≠ s.base_meta_addr := fun e => h.base_notin (e ▸ ha)
    rw [hp.mem_other a e1 e2]
    split_ifs <;> simp
  have hlen := Inv_length h
  constructor
  · rw [hp.base]; exact h.base_ne
  · rw [hp.base]
    simp only [linked]
    refine ⟨by rw [hp.mem_base], hb, by rw [hp.mem_blk], ?_⟩
    have hl := h.link
    cases l with
    | nil =>
      simp only [linked] at hl ⊢
      rw [hp.mem_blk]; exact hl
    | cons a l =>
      simp only [linked] at hl ⊢
      obtain ⟨g1, g2, g3, g4⟩ := hl
      have e1 : a ≠ blk := fun e => hbl (e ▸ List.mem_cons_self _ _)
      have e2 : a ≠ s.base_meta_addr := fun e => h.base_notin (e ▸ List.mem_cons_self _ _)
      have ha : s1.mem a = { s.mem a with last := blk } := by
        rw [hp.mem_other a e1 e2, if_pos ⟨g1.symm, g2⟩]
      refine ⟨by rw [hp.mem_blk]; exact g1, g2, by rw [ha], ?_⟩
      apply linked_congr l a _ _ g4
      · intro x hx
        apply (hold x _).2.2.2.2.2
        rcases hx with e | e
        · rw [e]; exact List.mem_cons_self _ _
        · exact List.mem_cons_of_mem _ e
      · intro x hx
        have e3 : x ≠ blk := fun e => hbl (e ▸ List.mem_cons_of_mem _ hx)
        have e4 : x ≠ s.base_meta_addr := fun e => h.base_notin (e ▸ List.mem_cons_of_mem _ hx)
        have e5 : x ≠ a := fun e => (List.nodup_cons.1 h.nodup).1 (e ▸ hx)
        rw [hp.mem_other x e3 e4, if_neg (fun c => e5 (c.1.trans g1))]
  · exact List.nodup_cons.2 ⟨hbl, h.nodup⟩
  · rw [hp.base]
    intro hm
    rcases List.mem_cons.1 hm with e | e
    · exact hbB e.symm
    · exact h.base_notin e
  · intro a ha
    rcases List.mem_cons.1 ha with e | e
    · rw [e, hp.mem_blk]; exact ⟨rfl, rfl⟩
    · have := hold a e
      rw [this.2.2.2.1, this.2.2.2.2.1]; exact h.tagged a e
  · intro a h1 h2
    by_cases e1 : a = blk
    · rw [e1]; exact List.mem_cons_self _ _
    · apply List.mem_cons_of_mem
      by_cases e2 : a = s.base_meta_addr
      · rw [e2, hp.mem_base] at h1 h2
        rw [e2]; exact h.only _ h1 h2
      · rw [hp.mem_other a e1 e2] at h1 h2
        split_ifs at h1 h2
        · exact h.only a h1 h2
        · exact h.only a h1 h2
  · rw [hp.nactive, h.count, List.length_cons]
    apply uadd_eq; unfold WORD at *; omega
  · rw [hp.active_size, List.map_cons, List.sum_cons, hp.mem_blk]
    have : (l.map fun a => (s1.mem a).size) = (l.map fun a => (s.mem a).size) :=
      List.map_congr_left (fun a ha => (hold a ha).2.2.1)
    rw [this, ← h.total, uadd_eq (by unfold sizeof_metadata SIZE_MAX WORD at *; omega)]
    exact Nat.add_comm _ _
  · rw [hp.active_size, uadd_eq (by unfold sizeof_metadata SIZE_MAX WORD at *; omega)]
    exact hgb
  · intro a ha
    rcases List.mem_cons.1 ha with e | e
    · rw [e, hp.mem_blk]
      refine ⟨k1, ?_⟩
      show blk + sizeof_metadata + sz + 16 ≤ WORD
      omega
    · rw [(hold a e).2.2.1]; exact h.fits a e
  · have hmin : s1.global_stats.heap_min ≤ blk + sizeof_metadata ∧
        (s.global_stats.heap_min ≠ 0 → s1.global_stats.heap_min ≤ s.global_stats.heap_min) := by
      rw [hp.heap_min, hptr]; split_ifs <;> omega
    have hmin0 : s1.global_stats.heap_min ≠ 0 := by
      rw [hp.heap_min, hptr]
      split_ifs with c
      · unfold sizeof_metadata; omega
      · intro e; exact c (Or.inr e)
    have hmax : blk + sizeof_metadata + sz ≤ s1.global_stats.heap_max ∧
        s.global_stats.heap_max ≤ s1.global_stats.heap_max := by
      rw [hp.heap_max, hptr2]
      split_ifs with c
      · rcases c with c | c
        · omega
        · exact absurd c hmin0
      · omega
    intro a ha
    rcases List.mem_cons.1 ha with e | e
    · rw [e, hp.mem_blk]; exact ⟨hmin.1, hmax.1⟩
    · rw [(hold a e).2.2.1]
      have hb1 := h.bounds a e
      have hs := h.heap_set (List.ne_nil_of_mem e)
      exact ⟨Nat.le_trans (hmin.2 hs) hb1.1, Nat.le_trans hb1.2 hmax.2⟩
  · intro _
    rw [hp.heap_min, hptr]
    split_ifs with c
    · unfold sizeof_metadata; omega
    · intro e; exact c (Or.inr e)
  · have hout : outstanding s1.base_calls =
        outstanding s.base_calls ++ [(blk, sz + sizeof_metadata + 16)] := by
      rw [hp.base_calls, outstanding_append, hn]
      simp [outstanding_step, hb]
    intro a ha
    rw [hout]
    rcases List.mem_cons.1 ha with e | e
    · rw [e, hp.mem_blk]; simp
    · rw [(hold a e).2.2.1]; exact List.mem_append_left _ (h.live a e)
  · rw [hp.ntotal, hp.total_size, hp.nfail, hp.fail_size, hp.heap_min, hp.heap_max]
    refine ⟨uadd_lt _ _, uadd_lt _ _, h.typed.2.2.1, h.typed.2.2.2.1, ?_, ?_⟩
    · split_ifs
      · exact uadd_lt _ _
      · exact h.typed.2.2.2.2.1
    · split_ifs
      · exact uadd_lt _ _
      · exact h.typed.2.2.2.2.2

/-- What the invariant says of a call of `m61_free` that passes the checks: the header
is a registered one, and its neighbours are where the list says. -/
theorem passes_registered {s : State} {l : List Nat} {ptr : Nat} (h : Inv s l)
    (hp : free_passes s ptr) :
    ∃ l1 l2, l = l1 ++ usub ptr sizeof_metadata :: l2 ∧
      ptr = usub ptr sizeof_metadata + sizeof_metadata ∧
      (s.mem (usub ptr sizeof_metadata)).last ≠ 0 ∧
      (s.mem (usub ptr sizeof_metadata)).last ≠ usub ptr sizeof_metadata ∧
      (s.mem (usub ptr sizeof_metadata)).next ≠ usub ptr sizeof_metadata ∧
      (s.mem (usub ptr sizeof_metadata)).next ≠ (s.mem (usub ptr sizeof_metadata)).last ∧
      ((s.mem (usub ptr sizeof_metadata)).next ≠ 0 →
        (s.mem (s.mem (usub ptr sizeof_metadata)).next).last = usub ptr sizeof_metadata) := by
  obtain ⟨_, _, _, _, h5, h6, _⟩ := hp
  have hm := h.only _ h5 h6
  have hptr : ptr = usub ptr sizeof_metadata + sizeof_metadata := by
    have := Inv_lt_word h _ hm
    unfold usub sizeof_metadata WORD at *
    split_ifs at this ⊢ <;> omega
  generalize usub ptr sizeof_metadata = m at *
  obtain ⟨l1, l2, hl⟩ := List.append_of_mem hm
  have hlink := h.link
  have hnd : (s.base_meta_addr :: l).Nodup := List.nodup_cons.2 ⟨h.base_notin, h.nodup⟩
  rw [hl] at hlink hnd
  have hnz : ∀ a ∈ l, a ≠ 0 := linked_ne_zero l _ h.link
  have hla := linked_last_mem l1 _ hlink
  have hne := linked_next_mem l1 _ hlink
  have hd2 := hnd
  rw [← List.cons_append, List.nodup_append] at hd2
  obtain ⟨d1, d2, d3⟩ := hd2
  have hlast : (s.mem m).last ∈ s.base_meta_addr :: l1 := by
    by_cases e : l1 = []
    · rw [hla.1 e]; exact List.mem_cons_self _ _
    · exact List.mem_cons_of_mem _ (hla.2 e)
  have hlast0 : (s.mem m).last ≠ 0 := by
    rcases List.mem_cons.1 hlast with e | e
    · rw [e]; exact h.base_ne
    · exact hnz _ (by rw [hl]; exact List.mem_append_left _ e)
  have hnext : (s.mem m).next = 0 ∨ (s.mem m).next ∈ l2 := by
    by_cases e : l2 = []
    · exact Or.inl (hne.1 e)
    · exact Or.inr (hne.2 e).1
  have hm0 : m ≠ 0 := hnz m hm
  refine ⟨l1, l2, hl, hptr, hlast0, ?_, ?_, ?_, ?_⟩
  · intro e; exact d3 hlast (by rw [e]; exact List.mem_cons_self _ _)
  · rcases hnext with e | e
    · rw [e]; exact fun c => hm0 c.symm
    · intro c
      have := (List.nodup_cons.1 d2).1
      exact this (c ▸ e)
  · rcases hnext with e | e
    · rw [e]; exact fun c => hlast0 c.symm
    · intro c; exact d3 hlast (by rw [← c]; exact List.mem_cons_of_mem _ e)
  · intro hn0
    have ht := linked_tail l1 _ hlink
    cases l2 with
    | nil => simp only [linked] at ht; exact absurd ht hn0
    | cons b l2 => simp only [linked] at ht; rw [ht.1]; exact ht.2.2.1

theorem Inv_free {s s1 : State} {l1 l2 : List Nat} {m : Nat}
    (h : Inv s (l1 ++ m :: l2)) (hp : free_post s m s1) : Inv s1 (l1 ++ l2) := by
  have hnd : (s.base_meta_addr :: (l1 ++ m :: l2)).Nodup :=
    List.nodup_cons.2 ⟨h.base_notin, h.nodup⟩
  have hsub : ∀ a ∈ l1 ++ l2, a ∈ l1 ++ m :: l2 ∧ a ≠ m := by
    intro a ha
    have hn := h.nodup
    rw [List.nodup_append] at hn
    rcases List.mem_append.1 ha with e | e
    · exact ⟨List.mem_append_left _ e, fun c => hn.2.2 e (c ▸ List.mem_cons_self _ _)⟩
    · exact ⟨List.mem_append_right _ (List.mem_cons_of_mem _ e),
        fun c => (List.nodup_cons.1 hn.2.1).1 (c ▸ e)⟩
  have hold : ∀ a, a ≠ m → (s1.mem a).size = (s.mem a).size ∧ (s1.mem a).id = (s.mem a).id ∧
      (s1.mem a).unfreed = (s.mem a).unfreed := by
    intro a ha
    by_cases e1 : a = (s.mem m).last
    · rw [e1, hp.mem_last]; exact ⟨rfl, rfl, rfl⟩
    · by_cases e2 : a = (s.mem m).next ∧ (s.mem m).next ≠ 0
      · rw [e2.1, hp.mem_next e2.2]; exact ⟨rfl, rfl, rfl⟩
      · rw [hp.mem_other a ha e1 ?_]
        · exact ⟨rfl, rfl, rfl⟩
        · by_cases e3 : a = (s.mem m).next
          · right
            by_contra c
            exact e2 ⟨e3, e3 ▸ c⟩
          · exact Or.inl e3
  have hmm : m ∈ l1 ++ m :: l2 := List.mem_append_right _ (List.mem_cons_self _ _)
  have hsum : (List.map (fun a => (s.mem a).size) (l1 ++ m :: l2)).sum =
      (List.map (fun a => (s.mem a).size) (l1 ++ l2)).sum + (s.mem m).size := by
    simp only [List.map_append, List.map_cons, List.sum_append, List.sum_cons]
    omega
  have hmap : (List.map (fun a => (s1.mem a).size) (l1 ++ l2)) =
      (List.map (fun a => (s.mem a).size) (l1 ++ l2)) :=
    List.map_congr_left (fun a ha => (hold a (hsub a ha).2).1)
  constructor
  · rw [hp.base]; exact h.base_ne
  · rw [hp.base]
    exact unlink_linked hp.mem_last hp.mem_next hp.mem_other l1 _ h.link hnd
  · have hn := h.nodup
    rw [List.nodup_append] at hn ⊢
    exact ⟨hn.1, (List.nodup_cons.1 hn.2.1).2,
      fun a ha hb => hn.2.2 ha (List.mem_cons_of_mem _ hb)⟩
  · rw [hp.base]; exact fun c => h.base_notin (hsub _ c).1
  · intro a ha
    have := hold a (hsub a ha).2
    rw [this.2.1, this.2.2]; exact h.tagged a (hsub a ha).1
  · intro a h1 h2
    have ham : a ≠ m := by
      intro c
      rw [c, hp.mem_m] at h2
      simp [unfreed_id] at h2
    have := hold a ham
    rw [this.2.1] at h1
    rw [this.2.2] at h2
    have hin := h.only a h1 h2
    rcases List.mem_append.1 hin with e | e
    · exact List.mem_append_left _ e
    · rcases List.mem_cons.1 e with e | e
      · exact absurd e ham
      · exact List.mem_append_right _ e
  · rw [hp.nactive, h.count, usub_eq (by simp; omega)]
    simp
  · rw [hp.active_size, h.total, hmap, hsum, usub_eq (by omega)]
    omega
  · rw [hp.active_size, h.total, hsum, usub_eq (by omega)]
    have := h.bound
    rw [h.total, hsum] at this
    omega
  · intro a ha
    rw [(hold a (hsub a ha).2).1]; exact h.fits a (hsub a ha).1
  · intro a ha
    rw [(hold a (hsub a ha).2).1, hp.heap_min, hp.heap_max]; exact h.bounds a (hsub a ha).1
  · intro _
    rw [hp.heap_min]; exact h.heap_set (by simp)
  · intro a ha
    rw [(hold a (hsub a ha).2).1, hp.base_calls, outstanding_append]
    simp only [outstanding_step, List.mem_filter, decide_eq_true_eq]
    exact ⟨h.live a (hsub a ha).1, (hsub a ha).2⟩
  · rw [hp.ntotal, hp.total_size, hp.nfail, hp.fail_size, hp.heap_min, hp.heap_max]
    exact h.typed

theorem m61_malloc_reject (s : State) (blk sz file : Nat) (line : Int)
    (hg : sz ≥ size_limit s.global_stats.active_size) :
    m61_malloc s blk sz file line = .ok (0, { s with
      global_stats := { s.global_stats with
        nfail := uadd s.global_stats.nfail 1
        fail_size := uadd s.global_stats.fail_size sz } }) := by
  simp only [m61_malloc, hg, if_true]

theorem m61_malloc_null (s : State) (sz file : Nat) (line : Int)
    (hg : sz < size_limit s.global_stats.active_size) :
    m61_malloc s 0 sz file line = .error .null_deref := by
  simp only [m61_malloc, Nat.not_le.2 hg, if_false, if_true]

/-- The head of the registered list is neither a fresh block nor the sentinel. -/
theorem head_fresh {s : State} {l : List Nat} (h : Inv s l) {blk : Nat} (hb : blk ≠ 0)
    (hbl : blk ∉ l) :
    (s.mem s.base_meta_addr).next ≠ blk ∧
      (s.mem s.base_meta_addr).next ≠ s.base_meta_addr := by
  have hl := h.link
  cases l with
  | nil =>
    simp only [linked] at hl
    rw [hl]; exact ⟨fun c => hb c.symm, fun c => h.base_ne c.symm⟩
  | cons a l =>
    simp only [linked] at hl
    rw [hl.1]
    exact ⟨fun c => hbl (c ▸ List.mem_cons_self _ _),
      fun c => h.base_notin (c ▸ List.mem_cons_self _ _)⟩

/-- A call of `m61_malloc` that gets a block: the result and the state after it. -/
theorem m61_malloc_success {s : State} {l : List Nat} (h : Inv s l) {blk sz : Nat}
    (file : Nat) (line : Int) (hg : sz < size_limit s.global_stats.active_size)
    (hok : base_malloc_ok s (uadd (uadd sz sizeof_metadata) 16) blk) (hb : blk ≠ 0) :
    ∃ s1, m61_malloc s blk sz file line = .ok (blk + sizeof_metadata, s1) ∧
      malloc_post s blk sz file line s1 ∧ Inv s1 (blk :: l) ∧ blk ∉ l ∧
      blk ≠ s.base_meta_addr := by
  have hgb := guard_bound h hg
  have hn : uadd (uadd sz sizeof_metadata) 16 = sz + sizeof_metadata + 16 := by
    unfold uadd sizeof_metadata SIZE_MAX WORD at *; omega
  have hok1 := hok
  rw [hn] at hok1
  obtain ⟨hbB, hbl⟩ := fresh_block h hok1 hb (by unfold sizeof_metadata; omega)
  obtain ⟨_, k2, _, _⟩ := hok1 hb
  have hptr : uadd blk sizeof_metadata = blk + sizeof_metadata := by
    unfold uadd sizeof_metadata WORD at *; omega
  obtain ⟨f1, f2⟩ := head_fresh h hb hbl
  obtain ⟨s1, e1, e2⟩ := m61_malloc_ok s blk sz file line hg hb hbB f1 f2
  rw [hptr] at e1
  exact ⟨s1, e1, e2, Inv_malloc h hg hok hb e2, hbl, hbB⟩

theorem ex_state1_eq : m61_malloc ex_state0 65536 8 1 10 = .ok (65592, ex_state1) := by
  rfl

/-- C3 (what the code does): when the request passes the size check and `base_malloc`
returns null, `m61_malloc` does not return null: it stores the header through the null
pointer (`*metaptr = data`), which is undefined behaviour. -/
theorem malloc_null_block_faults (s : State) (sz file : Nat) (line : Int)
    (hg : ¬ sz ≥ size_limit s.global_stats.active_size) :
    m61_malloc s 0 sz file line = .error .null_deref := by
  simp only [m61_malloc, hg, if_false, if_true]

theorem malloc_null_block_faults_witness :
    (¬ 8 ≥ size_limit ex_state0.global_stats.active_size) ∧
    m61_malloc ex_state0 0 8 1 10 = .error .null_deref :=
  ⟨by decide, malloc_null_block_faults ex_state0 8 1 10 (by decide)⟩

/-- C7 (what the code does): with 80 bytes logged at site `(1, 10)` and 20 bytes at site
`(2, 20)`, the printing loop starts at `result[result.size()]`, outside the vector, and
stops before `result[0]`: if the access traps the report prints nothing, and if it reads
a harmless object of size 0 the report prints the line of the 20 % site only; the site
with 80 % of the bytes is never printed. With 50 bytes at each site only one of the two
lines is printed. -/
theorem heavy_hitter_report_skips_largest :
    m61_print_heavy_hitter_report none ex_log_80_20 = .error .out_of_range ∧
    m61_print_heavy_hitter_report (some ⟨(0, 0), 0⟩) ex_log_80_20 =
      .ok { ex_log_80_20 with out := [.heavy_hitter 2 20 20 (.fin 10485760 (-19))] } ∧
    m61_print_heavy_hitter_report (some ⟨(0, 0), 0⟩) ex_log_50_50 =
      .ok { ex_log_50_50 with out := [.heavy_hitter 2 20 50 (.fin 13107200 (-18))] } := by
  refine ⟨rfl, rfl, rfl⟩

/-- C8 (what the code does): with an empty log the report reads `hhvec[0]` of an empty
vector before anything else, an access out of range. -/
theorem heavy_hitter_report_empty_log_faults (s : State) :
    m61_print_heavy_hitter_report none { s with hhvec := [] } = .error .out_of_range := by
  rfl

/-- The check `isOverflowed` finds every product that exceeds `SIZE_MAX`. -/
theorem isOverflowed_of_overflow {a b : Nat} (h : a * b > SIZE_MAX) :
    isOverflowed a b = .ok true := by
  have ha : a ≠ 0 := by
    intro c; rw [c] at h; simp at h
  have hne : umul a b / a ≠ b := by
    intro c
    have h1 : umul a b / a * a ≤ umul a b := Nat.div_mul_le_self _ _
    rw [c] at h1
    have h2 : umul a b < WORD := Nat.mod_lt _ (by unfold WORD; omega)
    have h3 : a * b = b * a := Nat.mul_comm _ _
    unfold SIZE_MAX WORD at *
    omega
  simp [isOverflowed, ha, hne]

/-- The check `isOverflowed` lets every product through that fits, when the first factor
is not zero. -/
theorem isOverflowed_of_fits {a b : Nat} (ha : a ≠ 0) (h : a * b ≤ SIZE_MAX) :
    isOverflowed a b = .ok false := by
  have h1 : umul a b = a * b := Nat.mod_eq_of_lt (by unfold SIZE_MAX WORD at *; omega)
  have h2 : umul a b / a = b := by
    rw [h1]; exact Nat.mul_div_cancel_left b (Nat.pos_of_ne_zero ha)
  simp [isOverflowed, ha, h2]

/-- For a count that is not zero and a product that fits, `m61_calloc(count, size)`
returns what `m61_malloc(count * size)` returns, and the state after it is the state
after `m61_malloc` with the returned region filled with zeros. -/
theorem m61_calloc_eq_malloc (s s1 : State) (blk count size file p : Nat) (line : Int)
    (hc : count ≠ 0) (h : count * size ≤ SIZE_MAX)
    (hm : m61_malloc s blk (count * size) file line = .ok (p, s1)) :
    m61_calloc s blk count size file line =
      .ok (p, if p ≠ 0 then { s1 with bytes := memset_zero s1.bytes p (count * size) }
        else s1) := by
  have h1 : umul count size = count * size :=
    Nat.mod_eq_of_lt (by unfold SIZE_MAX WORD at *; omega)
  simp only [m61_calloc, isOverflowed_of_fits hc h, h1, hm]
  split_ifs <;> rfl

/-- After `memset(ptr, 0, n)` the `n` bytes from `ptr` are zero. -/
theorem memset_zero_region (bytes : Nat → Nat) (ptr n i : Nat) (hi : i < n) :
    memset_zero bytes ptr n (ptr + i) = 0 := by
  unfold memset_zero
  rw [if_pos ⟨Nat.le_add_right _ _, Nat.add_lt_add_left hi _⟩]

/-- C9: for every count and size whose product exceeds `SIZE_MAX`, `m61_calloc` returns
null whatever `base_malloc` would have returned, and the state after it is the state
before with `nfail` raised by 1 (in 64-bit arithmetic): `fail_size`, the other counters,
the memory, the log and the record of calls to the underlying allocator are unchanged. -/
theorem calloc_overflow_rejected (s : State) (count size file : Nat) (line : Int)
    (h : count * size > SIZE_MAX) :
    ∀ blk, m61_calloc s blk count size file line = .ok (0, { s with
      global_stats := { s.global_stats with nfail := uadd s.global_stats.nfail 1 } }) := by
  intro blk
  unfold m61_calloc
  rw [isOverflowed_of_overflow h]

theorem calloc_overflow_rejected_witness :
    2 ^ 32 * 2 ^ 32 > SIZE_MAX ∧
    ∀ blk, m61_calloc ex_state0 blk (2 ^ 32) (2 ^ 32) 1 10 = .ok (0, { ex_state0 with
      global_stats := { ex_state0.global_stats with
        nfail := uadd ex_state0.global_stats.nfail 1 } }) :=
  ⟨by decide, calloc_overflow_rejected ex_state0 (2 ^ 32) (2 ^ 32) 1 10 (by decide)⟩

/-- C10 (what the code does): for a count of zero, `isOverflowed(0, size)` computes
`prod / 0`: `m61_calloc(0, size)` divides by zero before it reaches `m61_malloc`. -/
theorem calloc_zero_count_faults (s : State) (blk size file : Nat) (line : Int) :
    m61_calloc s blk 0 size file line = .error .div_by_zero := by
  rfl

/-- C13: in every state, `m61_free(nullptr, file, line)` returns the state it was
called in: nothing is printed, and no counter, heap bound, header, byte, log entry or
call to the underlying allocator is added or changed; the result does not depend on
what the memory holds, so no header is read. -/
theorem free_null_noop (s : State) (file : Nat) (line : Int) :
    m61_free s 0 file line = .ok s := by
  simp [m61_free]

theorem history_reachable {s : State} {g : Ghost} (h : History s g) : Reachable s := by
  induction h with
  | init B mem0 bytes0 h1 h2 h3 => exact Reachable.init B mem0 bytes0 h1 h2 h3
  | malloc _ h1 h2 h3 ih => exact Reachable.malloc ih h1 h2 h3
  | calloc _ h1 h2 h3 h4 ih => exact Reachable.calloc ih h1 h2 h3 h4
  | free _ h1 h2 ih => exact Reachable.free ih h1 h2
  | write a v _ h1 ih => exact Reachable.write a v ih h1

theorem reachable_history {s : State} (h : Reachable s) : ∃ g, History s g := by
  induction h with
  | init B mem0 bytes0 h1 h2 h3 => exact ⟨_, History.init B mem0 bytes0 h1 h2 h3⟩
  | malloc _ h1 h2 h3 ih => obtain ⟨g, hg⟩ := ih; exact ⟨_, History.malloc hg h1 h2 h3⟩
  | calloc _ h1 h2 h3 h4 ih => obtain ⟨g, hg⟩ := ih; exact ⟨_, History.calloc hg h1 h2 h3 h4⟩
  | free _ h1 h2 ih => obtain ⟨g, hg⟩ := ih; exact ⟨_, History.free hg h1 h2⟩
  | write a v _ h1 ih => obtain ⟨g, hg⟩ := ih; exact ⟨_, History.write a v hg h1⟩

/-- The outcomes of a call of `m61_malloc` that returns: rejected by the size check, or
served with the block. -/
theorem malloc_step_cases {s s1 : State} {l : List Nat} {blk sz file p : Nat} {line : Int}
    (h : Inv s l) (hok : base_malloc_ok s (uadd (uadd sz sizeof_metadata) 16) blk)
    (hr : m61_malloc s blk sz file line = .ok (p, s1)) :
    (p = 0 ∧ sz ≥ size_limit s.global_stats.active_size ∧
      s1 = { s with global_stats := { s.global_stats with
        nfail := uadd s.global_stats.nfail 1
        fail_size := uadd s.global_stats.fail_size sz } }) ∨
    (p = blk + sizeof_metadata ∧ blk ≠ 0 ∧ sz < size_limit s.global_stats.active_size ∧
      malloc_post s blk sz file line s1 ∧ Inv s1 (blk :: l) ∧ blk ∉ l ∧
      blk ≠ s.base_meta_addr) := by
  by_cases hg : sz ≥ size_limit s.global_stats.active_size
  · rw [m61_malloc_reject s blk sz file line hg] at hr
    injection hr with hr
    injection hr with hp hs
    exact Or.inl ⟨hp.symm, hg, hs.symm⟩
  · have hg1 := Nat.not_le.1 hg
    by_cases hb : blk = 0
    · rw [hb, m61_malloc_null s sz file line hg1] at hr
      cases hr
    · obtain ⟨s2, e1, e2, e3, e4, e5⟩ := m61_malloc_success h file line hg1 hok hb
      rw [e1] at hr
      injection hr with hr
      injection hr with hp hs
      subst hs
      exact Or.inr ⟨hp.symm, hb, hg1, e2, e3, e4, e5⟩

/-- The outcomes of a call of `m61_free` that returns: rejected with nothing but output
changed, or the header of a registered allocation unlinked. -/
theorem free_step_cases {s s1 : State} {l : List Nat} {ptr file : Nat} {line : Int}
    (h : Inv s l) (hr : m61_free s ptr file line = .ok s1) :
    (¬ free_passes s ptr ∧ same_but_out s s1) ∨
    (free_passes s ptr ∧ ∃ l1 l2 m, l = l1 ++ m :: l2 ∧ ptr = m + sizeof_metadata ∧
      free_post s m s1 ∧ s1.out = s.out ∧ Inv s1 (l1 ++ l2)) := by
  by_cases hp : free_passes s ptr
  · right
    obtain ⟨l1, l2, hl, hptr, a1, a2, a3, a4, a5⟩ := passes_registered h hp
    obtain ⟨s2, e1, e2, e3⟩ := m61_free_unlink s ptr file line hp a1 a2 a3 a4
    rw [e1] at hr
    injection hr with hr
    subst hr
    rw [hl] at h
    refine ⟨hp, l1, l2, _, hl, hptr, e2, ?_, Inv_free h e2⟩
    rw [e3, if_neg]
    intro c
    exact c.2 (a5 c.1)
  · exact Or.inl ⟨hp, m61_free_frame hp hr⟩

/-- The outcomes of a call of `m61_calloc` that returns: rejected by the overflow check,
or the outcome of `m61_malloc` with at most the bytes changed. -/
theorem calloc_step_cases {s s1 : State} {blk nmemb sz file p : Nat} {line : Int}
    (hr : m61_calloc s blk nmemb sz file line = .ok (p, s1)) :
    (p = 0 ∧ s1 = { s with global_stats := { s.global_stats with
        nfail := uadd s.global_stats.nfail 1 } }) ∨
    (∃ s2, m61_malloc s blk (umul nmemb sz) file line = .ok (p, s2) ∧
      s1.base_meta_addr = s2.base_meta_addr ∧ s1.mem = s2.mem ∧
      s1.global_stats = s2.global_stats ∧ s1.hhvec = s2.hhvec ∧ s1.out = s2.out ∧
      s1.base_calls = s2.base_calls) := by
  unfold m61_calloc at hr
  cases ho : isOverflowed nmemb sz with
  | error e => rw [ho] at hr; cases hr
  | ok b =>
    rw [ho] at hr
    cases b with
    | true =>
      simp only [] at hr
      injection hr with hr
      injection hr with hp hs
      exact Or.inl ⟨hp.symm, hs.symm⟩
    | false =>
      simp only [] at hr
      cases hm : m61_malloc s blk (umul nmemb sz) file line with
      | error e => rw [hm] at hr; cases hr
      | ok r =>
        obtain ⟨q, s2⟩ := r
        rw [hm] at hr
        simp only [] at hr
        right
        split_ifs at hr
        · injection hr with hr
          injection hr with hp hs
          subst hp; subst hs
          exact ⟨s2, rfl, rfl, rfl, rfl, rfl, rfl, rfl⟩
        · injection hr with hr
          injection hr with hp hs
          subst hp; subst hs
          exact ⟨s2, rfl, rfl, rfl, rfl, rfl, rfl, rfl⟩

/-! ## The invariant of the histories -/

theorem alloc_of_congr {s s1 : State} {a : Nat}
    (h : record_of (s1.mem a) = record_of (s.mem a)) : alloc_of s1 a = alloc_of s a := by
  simp only [record_of, Prod.mk.injEq] at h
  simp only [alloc_of, h.1, h.2.1, h.2.2.1]

theorem malloc_post_record {s s1 : State} {blk sz file : Nat} {line : Int}
    (hp : malloc_post s blk sz file line s1) {a : Nat} (h1 : a ≠ blk)
    (h2 : a ≠ s.base_meta_addr) : record_of (s1.mem a) = record_of (s.mem a) := by
  rw [hp.mem_other a h1 h2]
  split_ifs <;> rfl

theorem free_post_record {s s1 : State} {m : Nat} (hp : free_post s m s1) {a : Nat}
    (ha : a ≠ m) : record_of (s1.mem a) = record_of (s.mem a) := by
  by_cases e1 : a = (s.mem m).last
  · rw [e1, hp.mem_last]; rfl
  · by_cases e2 : a = (s.mem m).next ∧ (s.mem m).next ≠ 0
    · rw [e2.1, hp.mem_next e2.2]; rfl
    · rw [hp.mem_other a ha e1 ?_]
      by_cases e3 : a = (s.mem m).next
      · right
        by_contra c
        exact e2 ⟨e3, e3 ▸ c⟩
      · exact Or.inl e3

/-- The heap bounds after a successful `m61_malloc`: `heap_min` does not grow once it
is set, `heap_max` does not shrink. -/
theorem malloc_post_bounds {s s1 : State} {blk sz file : Nat} {line : Int}
    (hp : malloc_post s blk sz file line s1) (h0 : s1.global_stats.heap_min ≠ 0) :
    (s.global_stats.heap_min ≠ 0 → s1.global_stats.heap_min ≤ s.global_stats.heap_min) ∧
    s.global_stats.heap_max ≤ s1.global_stats.heap_max := by
  constructor
  · intro h
    rw [hp.heap_min]
    split_ifs <;> omega
  · rw [hp.heap_max]
    split_ifs with c
    · rcases c with c | c
      · omega
      · exact absurd c h0
    · exact Nat.le_refl _

theorem HInv_frame {s s1 : State} {g : Ghost} {l : List Nat} (h : HInv s g l)
    (hb : s1.base_meta_addr = s.base_meta_addr) (hm : s1.mem = s.mem)
    (hc : s1.base_calls = s.base_calls)
    (h1 : s1.global_stats.nactive = s.global_stats.nactive)
    (h2 : s1.global_stats.active_size = s.global_stats.active_size)
    (h3 : s1.global_stats.heap_min = s.global_stats.heap_min)
    (h4 : s1.global_stats.heap_max = s.global_stats.heap_max)
    (h5 : s1.global_stats.ntotal < WORD ∧ s1.global_stats.total_size < WORD ∧
      s1.global_stats.nfail < WORD ∧ s1.global_stats.fail_size < WORD) :
    HInv s1 g l := by
  constructor
  · exact Inv_frame h.inv hb hm hc h1 h2 h3 h4 h5
  · rw [h.live]
    apply List.map_congr_left
    intro a _
    simp only [alloc_of, hm]
  · exact h.count
  · rw [h3, h4]; exact h.ever
  · rw [h3]; exact h.first

theorem HInv_same_but_out {s s1 : State} {g : Ghost} {l : List Nat} (h : HInv s g l)
    (hs : same_but_out s s1) : HInv s1 g l := by
  obtain ⟨b1, b2, _, b4, _, b6⟩ := hs
  apply HInv_frame h b1 b2 b6 <;> rw [b4]
  exact ⟨h.inv.typed.1, h.inv.typed.2.1, h.inv.typed.2.2.1, h.inv.typed.2.2.2.1⟩

theorem HInv_malloc {s s1 : State} {g : Ghost} {l : List Nat} {blk sz file : Nat} {line : Int}
    (h : HInv s g l) (hp : malloc_post s blk sz file line s1) (hi : Inv s1 (blk :: l))
    (hbl : blk ∉ l) :
    HInv s1 (ghost_alloc g (blk + sizeof_metadata) file line sz) (blk :: l) := by
  have hne : blk + sizeof_metadata ≠ 0 := by unfold sizeof_metadata; omega
  have hg : ghost_alloc g (blk + sizeof_metadata) file line sz =
      { nalloc := g.nalloc + 1, nfree := g.nfree,
        ever := ⟨blk + sizeof_metadata, file, line, sz⟩ :: g.ever,
        live := ⟨blk + sizeof_metadata, file, line, sz⟩ :: g.live } := by
    simp only [ghost_alloc, if_neg hne]
  have h0 : s1.global_stats.heap_min ≠ 0 := hi.heap_set (by simp)
  have hbd := malloc_post_bounds hp h0
  have hnew := hi.bounds blk (List.mem_cons_self _ _)
  rw [hp.mem_blk] at hnew
  rw [hg]
  constructor
  · exact hi
  · simp only [List.map_cons]
    have e1 : alloc_of s1 blk = ⟨blk + sizeof_metadata, file, line, sz⟩ := by
      simp only [alloc_of, hp.mem_blk]
    have e2 : l.map (alloc_of s1) = l.map (alloc_of s) := by
      apply List.map_congr_left
      intro a ha
      exact alloc_of_congr (malloc_post_record hp (fun c => hbl (c ▸ ha))
        (fun c => h.inv.base_notin (c ▸ ha)))
    rw [e1, e2, h.live]
  · simp only [List.length_cons]
    have := h.count
    omega
  · intro e he
    rcases List.mem_cons.1 he with c | c
    · rw [c]; exact ⟨hne, hnew.1, hnew.2⟩
    · have hold := h.ever e c
      have hf := h.first (List.ne_nil_of_mem c)
      exact ⟨hold.1, Nat.le_trans (hbd.1 hf) hold.2.1, Nat.le_trans hold.2.2 hbd.2⟩
  · intro _; exact h0

theorem filter_ne_middle {l1 l2 : List Nat} {m : Nat} (hn : (l1 ++ m :: l2).Nodup) :
    (l1 ++ m :: l2).filter (fun a => decide (a ≠ m)) = l1 ++ l2 := by
  rw [List.nodup_append] at hn
  obtain ⟨_, h2, h3⟩ := hn
  have e1 : l1.filter (fun a => decide (a ≠ m)) = l1 := by
    apply List.filter_eq_self.2
    intro a ha
    exact decide_eq_true (fun c => h3 ha (c ▸ List.mem_cons_self _ _))
  have e2 : l2.filter (fun a => decide (a ≠ m)) = l2 := by
    apply List.filter_eq_self.2
    intro a ha
    exact decide_eq_true (fun c => (List.nodup_cons.1 h2).1 (c ▸ ha))
  rw [List.filter_append, e1, List.filter_cons, e2]
  simp

theorem HInv_free {s s1 : State} {g : Ghost} {l1 l2 : List Nat} {m : Nat}
    (h : HInv s g (l1 ++ m :: l2)) (hpass : free_passes s (m + sizeof_metadata))
    (hp : free_post s m s1) (hi : Inv s1 (l1 ++ l2)) :
    HInv s1 (ghost_free g s (m + sizeof_metadata)) (l1 ++ l2) := by
  have hg : ghost_free g s (m + sizeof_metadata) =
      { nalloc := g.nalloc, nfree := g.nfree + 1, ever := g.ever,
        live := g.live.filter (fun e => decide (e.ptr ≠ m + sizeof_metadata)) } := by
    simp only [ghost_free, if_pos hpass]
  have hnd := h.inv.nodup
  have hlive : g.live.filter (fun e => decide (e.ptr ≠ m + sizeof_metadata)) =
      (l1 ++ l2).map (alloc_of s1) := by
    rw [h.live, List.filter_map]
    have e1 : ((fun e : Alloc => decide (e.ptr ≠ m + sizeof_metadata)) ∘ alloc_of s) =
        (fun a => decide (a ≠ m)) := by
      funext a
      simp [alloc_of]
    rw [e1, filter_ne_middle hnd]
    apply List.map_congr_left
    intro a ha
    symm
    apply alloc_of_congr (free_post_record hp _)
    intro c
    rw [List.nodup_append] at hnd
    rcases List.mem_append.1 ha with d | d
    · exact hnd.2.2 d (c ▸ List.mem_cons_self _ _)
    · exact (List.nodup_cons.1 hnd.2.1).1 (c ▸ d)
  rw [hg]
  constructor
  · exact hi
  · exact hlive
  · simp only [hlive, List.length_map, List.length_append]
    have := h.count
    rw [h.live] at this
    simp only [List.length_map, List.length_append, List.length_cons] at this
    omega
  · rw [hp.heap_min, hp.heap_max]; exact h.ever
  · rw [hp.heap_min]; exact h.first

theorem HInv_malloc_step {s s1 : State} {g : Ghost} {l : List Nat} {blk sz file p : Nat}
    {line : Int} (h : HInv s g l)
    (hok : base_malloc_ok s (uadd (uadd sz sizeof_metadata) 16) blk)
    (hr : m61_malloc s blk sz file line = .ok (p, s1)) :
    ∃ l1, HInv s1 (ghost_alloc g p file line sz) l1 := by
  rcases malloc_step_cases h.inv hok hr with ⟨hp, _, hs⟩ | ⟨hp, _, _, e2, e3, e4, _⟩
  · have hg : ghost_alloc g p file line sz = g := by
      simp only [ghost_alloc, hp, if_true]
    rw [hg, hs]
    exact ⟨l, HInv_frame h rfl rfl rfl rfl rfl rfl rfl
      ⟨h.inv.typed.1, h.inv.typed.2.1, uadd_lt _ _, uadd_lt _ _⟩⟩
  · rw [hp]
    exact ⟨blk :: l, HInv_malloc h e2 e3 e4⟩

/-- Every state reached by a history satisfies the invariant that ties it to the record
of the allocations. -/
theorem history_inv {s : State} {g : Ghost} (h : History s g) : ∃ l, HInv s g l := by
  induction h with
  | init B mem0 bytes0 hB _ h0 =>
    exact ⟨[], ⟨Inv_initial B mem0 bytes0 hB h0, rfl, rfl, by simp, by simp⟩⟩
  | malloc _ _ hok hr ih =>
    obtain ⟨l, hl⟩ := ih
    exact HInv_malloc_step hl hok hr
  | calloc _ _ _ hok hr ih =>
    obtain ⟨l, hl⟩ := ih
    rcases calloc_step_cases hr with ⟨hp, hs⟩ | ⟨s2, hm, c1, c2, c3, _, _, c6⟩
    · rw [hp, hs]
      refine ⟨l, ?_⟩
      have hg : ∀ (g : Ghost) (file : Nat) (line : Int) (sz : Nat),
          ghost_alloc g 0 file line sz = g := by
        intro g file line sz
        simp only [ghost_alloc, if_true]
      rw [hg]
      exact HInv_frame hl rfl rfl rfl rfl rfl rfl rfl
        ⟨hl.inv.typed.1, hl.inv.typed.2.1, uadd_lt _ _, hl.inv.typed.2.2.2.1⟩
    · obtain ⟨l1, h1⟩ := HInv_malloc_step hl hok hm
      refine ⟨l1, HInv_frame h1 c1 c2 c6 ?_ ?_ ?_ ?_ ?_⟩
      · rw [c3]
      · rw [c3]
      · rw [c3]
      · rw [c3]
      · rw [c3]
        exact ⟨h1.inv.typed.1, h1.inv.typed.2.1, h1.inv.typed.2.2.1, h1.inv.typed.2.2.2.1⟩
  | @free s0 s1 g0 ptr file line _ _ hr ih =>
    obtain ⟨l, hl⟩ := ih
    rcases free_step_cases hl.inv hr with ⟨hp, hs⟩ | ⟨hp, l1, l2, m, e1, e2, e3, _, e5⟩
    · have hg : ghost_free g0 s0 ptr = g0 := by
        simp only [ghost_free, if_neg hp]
      rw [hg]
      exact ⟨l, HInv_same_but_out hl hs⟩
    · rw [e2] at hp ⊢
      rw [e1] at hl
      exact ⟨l1 ++ l2, HInv_free hl hp e3 e5⟩
  | write a v _ _ ih =>
    obtain ⟨l, hl⟩ := ih
    exact ⟨l, HInv_frame hl rfl rfl rfl rfl rfl rfl rfl
      ⟨hl.inv.typed.1, hl.inv.typed.2.1, hl.inv.typed.2.2.1, hl.inv.typed.2.2.2.1⟩⟩

/-! ## The leak report -/

/-- The loop of the leak report along a list of linked headers: one line for each
header, in order, when the fuel outlasts the list. -/
theorem leak_loop_linked {mem : Nat → metadata} :
    ∀ (l : List Nat) (prev fuel : Nat), linked mem prev l → l.length < fuel →
      leak_loop mem fuel (mem prev).next = .ok (l.map fun a =>
        .leak (mem a).file (mem a).line (uadd a sizeof_metadata) (to_signed (mem a).size))
  | [], prev, fuel, h, hf => by
    simp only [linked] at h
    cases fuel with
    | zero => simp at hf
    | succ n => simp [leak_loop, h]
  | a :: l, prev, fuel, h, hf => by
    simp only [linked] at h
    cases fuel with
    | zero => simp at hf
    | succ n =>
      have ih := leak_loop_linked l a n h.2.2.2 (by simpa using hf)
      rw [h.1]
      simp only [leak_loop, if_neg h.2.1, ih, List.map_cons]

/-! ## Examples of histories -/

theorem ex_state2_eq : m61_malloc ex_state1 131072 16 1 11 = .ok (131128, ex_state2) := by
  rfl

theorem ex_state3_eq : m61_free ex_state2 65592 2 20 = .ok ex_state3 := by
  rfl

/-- C14 (what the code does): with an allocation of 8 bytes made at file 1, line 10, a
call `m61_free` at file 2, line 20 of the pointer one byte inside its payload prints the
"not allocated" line and one follow-up line with the offset 1 and the size 8, and
changes nothing else; the follow-up line carries the line 10 of the allocation but the
file 2 of the call of `m61_free`, not the file 1 of the allocation. -/
theorem free_inside_region_names_free_file :
    record_of (ex_state1.mem 65536) = (1, 10, 8, id_tag, unfreed_id) ∧
    m61_free ex_state1 65593 2 20 = .ok { ex_state1 with
      out := [.not_allocated 2 20 65593, .inside_region 2 10 65593 1 8] } := by
  exact ⟨rfl, rfl⟩

/-- C15 (what the code does): the check of the back link of the successor prints its
line and goes on. With two live allocations and the back link of the earlier one
overwritten, `m61_free` of the later one prints one "not allocated" line and then
unlinks the header and lowers `nactive` and `active_size`; when the canary is overwritten
as well, it prints two lines, "not allocated" and "wild write". -/
theorem free_linkage_check_not_gating :
    ex_corrupt.global_stats.nactive = 2 ∧ ex_corrupt.global_stats.active_size = 24 ∧
    (ex_corrupt.mem ex_corrupt.base_meta_addr).next = 131072 ∧
    (∃ s1, m61_free ex_corrupt 131128 2 20 = .ok s1 ∧
      s1.out = [.not_allocated 2 20 131128] ∧
      s1.global_stats.nactive = 1 ∧ s1.global_stats.active_size = 8 ∧
      (s1.mem s1.base_meta_addr).next = 65536 ∧ (s1.mem 131072).unfreed = 0 ∧
      s1.base_calls = ex_corrupt.base_calls ++ [.free 131072]) ∧
    m61_free (write_byte ex_corrupt 131144 0) 131128 2 20 =
      .ok { write_byte ex_corrupt 131144 0 with
        out := [.not_allocated 2 20 131128, .wild_write 2 20 131128] } := by
  refine ⟨rfl, rfl, rfl, ⟨_, rfl, rfl, rfl, rfl, rfl, rfl, rfl⟩, rfl⟩

/-! ## Histories of a caller that keeps to its blocks -/

/-- A history of a caller that keeps to its blocks is a history. -/
theorem disciplined_history {s : State} {g : Ghost} (h : Disciplined s g) : History s g := by
  induction h with
  | init B mem0 bytes0 h1 h2 h3 => exact History.init B mem0 bytes0 h1 h2 h3
  | malloc _ hsz hok hr ih => exact History.malloc ih hsz hok hr
  | calloc _ hn hsz hok hr ih => exact History.calloc ih hn hsz hok hr
  | free _ hp _ hr ih => exact History.free ih hp hr
  | write a v _ hv _ ih => exact History.write a v ih hv

theorem ex_disciplined3 : Disciplined ex_state3 ex_ghost3 :=
  Disciplined.free
    (Disciplined.malloc
      (Disciplined.malloc
        (Disciplined.init 4096 ex_mem0 (fun _ => 0) (by decide) (by decide)
          (by intro a; simp [ex_mem0, id_tag]))
        (by decide) (by decide) ex_state1_eq)
      (by decide) (by decide) ex_state2_eq)
    (by decide) (by decide) ex_state3_eq

theorem ex_state4b_eq : m61_free ex_state4a 65592 2 21 = .ok ex_state4b := by
  rfl

theorem ex_state4c_eq : m61_free ex_state4b 131129 2 22 = .ok ex_state4c := by
  rfl

theorem ex_state4d_eq : m61_free ex_state4c 8 2 23 = .ok ex_state4d := by
  rfl

theorem ex_state4_eq : m61_free ex_state4e 131128 2 24 = .ok ex_state4 := by
  rfl

/-- The history of `ex_state4` keeps to the blocks: two allocations, a release, a store
into the live payload, three calls of `m61_free` that are rejected before the header is
read or as a double free, a store over the canary, and a release that the canary check
rejects. -/
theorem ex_disciplined4 : Disciplined ex_state4 ex_ghost3 :=
  Disciplined.free
    (Disciplined.write 131144 0
      (Disciplined.free
        (Disciplined.free
          (Disciplined.free
            (Disciplined.write 131130 7 ex_disciplined3 (by decide) (by decide))
            (by decide) (by decide) ex_state4b_eq)
          (by decide) (by decide) ex_state4c_eq)
        (by decide) (by decide) ex_state4d_eq)
      (by decide) (by decide))
    (by decide) (by decide) ex_state4_eq

theorem ex_forged_freed_eq : m61_free ex_forged 65648 3 30 = .ok ex_forged_freed := by
  rfl

/-! ## The headers that `m61_free` reads in a history that keeps to the blocks -/

theorem released_intact_append (calls : List BaseCall) (c : BaseCall) (a : Nat) :
    released_intact (calls ++ [c]) a = released_step a (released_intact calls a) c := by
  simp [released_intact, List.foldl_append]

/-- The knowledge of the headers depends on the memory of the headers, the calls made to
the underlying allocator and the address of the sentinel only. -/
theorem headers_known_frame {s s1 : State} {l : List Nat} (h : headers_known s l)
    (hb : s1.base_meta_addr = s.base_meta_addr) (hm : s1.mem = s.mem)
    (hc : s1.base_calls = s.base_calls) : headers_known s1 l := by
  unfold headers_known at *
  rw [hb, hm, hc]
  exact h

/-- A call of `m61_malloc` that is served keeps the knowledge of the headers. -/
theorem headers_known_malloc {s s1 : State} {l : List Nat} {blk sz file : Nat} {line : Int}
    (hi : Inv s l) (h : headers_known s l)
    (hg : sz < size_limit s.global_stats.active_size) (hb : blk ≠ 0)
    (hp : malloc_post s blk sz file line s1) : headers_known s1 (blk :: l) := by
  have hgb := guard_bound hi hg
  have hn : uadd (uadd sz sizeof_metadata) 16 = sz + sizeof_metadata + 16 := by
    unfold uadd sizeof_metadata SIZE_MAX WORD at *; omega
  obtain ⟨h1, h2⟩ := h
  constructor
  · intro e he
    rw [hp.base_calls, outstanding_append] at he
    simp only [outstanding_step, if_neg hb, List.mem_append, List.mem_singleton] at he
    rcases he with he | he
    · exact List.mem_cons_of_mem _ (h1 e he)
    · rw [he]; exact List.mem_cons_self _ _
  · intro a ha
    rw [hp.base_calls, released_intact_append] at ha
    simp only [released_step] at ha
    by_cases c : blk ≠ 0 ∧ blk < a + sizeof_metadata ∧
        a < blk + uadd (uadd sz sizeof_metadata) 16
    · rw [if_pos c] at ha; cases ha
    · rw [if_neg c] at ha
      obtain ⟨k1, k2, k3, k4⟩ := h2 a ha
      have hab : a ≠ blk := by
        intro e
        apply c
        rw [hn, e]
        unfold sizeof_metadata
        exact ⟨hb, by omega, by omega⟩
      have hm := hp.mem_other a hab k4
      have hid : (s1.mem a).id = (s.mem a).id ∧ (s1.mem a).unfreed = (s.mem a).unfreed := by
        rw [hm]
        split_ifs
        · exact ⟨rfl, rfl⟩
        · exact ⟨rfl, rfl⟩
      refine ⟨by rw [hid.1]; exact k1, by rw [hid.2]; exact k2, ?_, by rw [hp.base]; exact k4⟩
      intro hm1
      rcases List.mem_cons.1 hm1 with e | e
      · exact hab e
      · exact k3 e

/-- A call of `m61_free` that unlinks the header at `m` keeps the knowledge of the
headers: the header at `m` becomes a released header. -/
theorem headers_known_free {s s1 : State} {l1 l2 : List Nat} {m : Nat}
    (hi : Inv s (l1 ++ m :: l2)) (h : headers_known s (l1 ++ m :: l2))
    (hp : free_post s m s1) : headers_known s1 (l1 ++ l2) := by
  obtain ⟨h1, h2⟩ := h
  have hnd := hi.nodup
  have hm_in : m ∈ l1 ++ m :: l2 := List.mem_append_right _ (List.mem_cons_self _ _)
  have hm_out : m ∉ l1 ++ l2 := by
    rw [List.nodup_append] at hnd
    intro hm1
    rcases List.mem_append.1 hm1 with e | e
    · exact hnd.2.2 e (List.mem_cons_self _ _) 
    · exact (List.nodup_cons.1 hnd.2.1).1 e
  have hsub : ∀ x, x ∈ l1 ++ m :: l2 → x ≠ m → x ∈ l1 ++ l2 := by
    intro x hx hxm
    rcases List.mem_append.1 hx with e | e
    · exact List.mem_append_left _ e
    · rcases List.mem_cons.1 e with e1 | e1
      · exact absurd e1 hxm
      · exact List.mem_append_right _ e1
  constructor
  · intro e he
    rw [hp.base_calls, outstanding_append] at he
    simp only [outstanding_step, List.mem_filter, decide_eq_true_eq] at he
    exact hsub e.1 (h1 e he.1) he.2
  · intro a ha
    rw [hp.base_calls, released_intact_append] at ha
    simp only [released_step] at ha
    by_cases c : m = a
    · subst c
      have ht := hi.tagged m hm_in
      refine ⟨?_, ?_, hm_out, ?_⟩
      · rw [hp.mem_m]; exact ht.1
      · rw [hp.mem_m]
      · rw [hp.base]; intro e; exact hi.base_notin (e ▸ hm_in)
    · rw [if_neg c] at ha
      obtain ⟨k1, k2, k3, k4⟩ := h2 a ha
      have hlast := linked_last_mem l1 s.base_meta_addr hi.link
      have hnext := linked_next_mem l1 s.base_meta_addr hi.link
      have e1 : a ≠ (s.mem m).last := by
        intro e
        by_cases c1 : l1 = []
        · exact k4 (by rw [e, hlast.1 c1])
        · exact k3 (by rw [e]; exact List.mem_append_left _ (hlast.2 c1))
      have e2 : a ≠ (s.mem m).next ∨ a = 0 := by
        by_cases c2 : l2 = []
        · by_cases c3 : a = (s.mem m).next
          · right; rw [c3]; exact hnext.1 c2
          · left; exact c3
        · left
          intro e
          exact k3 (by
            rw [e]
            exact List.mem_append_right _ (List.mem_cons_of_mem _ (hnext.2 c2).1))
      have hm := hp.mem_other a (fun e => c e.symm) e1 e2
      refine ⟨by rw [hm]; exact k1, by rw [hm]; exact k2, ?_, by rw [hp.base]; exact k4⟩
      intro hm1
      rcases List.mem_append.1 hm1 with e | e
      · exact k3 (List.mem_append_left _ e)
      · exact k3 (List.mem_append_right _ (List.mem_cons_of_mem _ e))

/-- In every history of a caller that keeps to its blocks the invariant of the registry
holds together with the knowledge of the headers. -/
theorem disciplined_headers_known {s : State} {g : Ghost} (h : Disciplined s g) :
    ∃ l, Inv s l ∧ headers_known s l := by
  induction h with
  | init B mem0 bytes0 hB _ h0 =>
    refine ⟨[], Inv_initial B mem0 bytes0 hB h0, ?_, ?_⟩
    · intro e he; simp [initial, outstanding] at he
    · intro a ha; simp [initial, released_intact] at ha
  | malloc _ _ hok hr ih =>
    obtain ⟨l, hi, hk⟩ := ih
    rcases malloc_step_cases hi hok hr with ⟨_, _, hs⟩ | ⟨_, hb, hg, hp, hi1, _, _⟩
    · rw [hs]
      exact ⟨l, Inv_frame hi rfl rfl rfl rfl rfl rfl rfl
        ⟨hi.typed.1, hi.typed.2.1, uadd_lt _ _, uadd_lt _ _⟩,
        headers_known_frame hk rfl rfl rfl⟩
    · exact ⟨_, hi1, headers_known_malloc hi hk hg hb hp⟩
  | calloc _ _ _ hok hr ih =>
    obtain ⟨l, hi, hk⟩ := ih
    rcases calloc_step_cases hr with ⟨_, hs⟩ | ⟨s2, hm, c1, c2, c3, _, _, c6⟩
    · rw [hs]
      exact ⟨l, Inv_frame hi rfl rfl rfl rfl rfl rfl rfl
        ⟨hi.typed.1, hi.typed.2.1, uadd_lt _ _, hi.typed.2.2.2.1⟩,
        headers_known_frame hk rfl rfl rfl⟩
    · rcases malloc_step_cases hi hok hm with ⟨_, _, hs⟩ | ⟨_, hb, hg, hp, hi1, _, _⟩
      · have hi2 : Inv s2 l := by
          rw [hs]
          exact Inv_frame hi rfl rfl rfl rfl rfl rfl rfl
            ⟨hi.typed.1, hi.typed.2.1, uadd_lt _ _, uadd_lt _ _⟩
        have hk2 : headers_known s2 l := by
          rw [hs]; exact headers_known_frame hk rfl rfl rfl
        refine ⟨l, Inv_frame hi2 c1 c2 c6 ?_ ?_ ?_ ?_ ?_, headers_known_frame hk2 c1 c2 c6⟩
        · rw [c3]
        · rw [c3]
        · rw [c3]
        · rw [c3]
        · rw [c3]
          exact ⟨hi2.typed.1, hi2.typed.2.1, hi2.typed.2.2.1, hi2.typed.2.2.2.1⟩
      · have hk2 := headers_known_malloc hi hk hg hb hp
        refine ⟨_, Inv_frame hi1 c1 c2 c6 ?_ ?_ ?_ ?_ ?_, headers_known_frame hk2 c1 c2 c6⟩
        · rw [c3]
        · rw [c3]
        · rw [c3]
        · rw [c3]
        · rw [c3]
          exact ⟨hi1.typed.1, hi1.typed.2.1, hi1.typed.2.2.1, hi1.typed.2.2.2.1⟩
  | free _ _ _ hr ih =>
    obtain ⟨l, hi, hk⟩ := ih
    rcases free_step_cases hi hr with ⟨_, hs⟩ | ⟨_, l1, l2, m, e1, _, e3, _, e5⟩
    · exact ⟨l, Inv_same_but_out hi hs, headers_known_frame hk hs.1 hs.2.1 hs.2.2.2.2.2⟩
    · rw [e1] at hi hk
      exact ⟨l1 ++ l2, e5, headers_known_free hi hk e3⟩
  | write a v _ _ _ ih =>
    obtain ⟨l, hi, hk⟩ := ih
    exact ⟨l, Inv_frame hi rfl rfl rfl rfl rfl rfl rfl
      ⟨hi.typed.1, hi.typed.2.1, hi.typed.2.2.1, hi.typed.2.2.2.1⟩,
      headers_known_frame hk rfl rfl rfl⟩

/-- In a history of a caller that keeps to its blocks, a call of `m61_free` that gets as
far as reading the header before the pointer reads a header that the allocator wrote:
the header of a registered (live) allocation, or the header of a released allocation,
which carries the tag and the cleared marker. -/
theorem disciplined_free_reads_header {s : State} {g : Ghost} (h : Disciplined s g)
    (ptr : Nat) (ha : free_allowed s ptr) (h1 : ptr ≠ 0)
    (h2 : ¬ (ptr < s.global_stats.heap_min ∨ ptr > s.global_stats.heap_max))
    (h3 : ptr % 8 = 0) :
    ∃ l, registry s l ∧
      (usub ptr sizeof_metadata ∈ l ∨
        ((s.mem (usub ptr sizeof_metadata)).id = id_tag ∧
          (s.mem (usub ptr sizeof_metadata)).unfreed = 0 ∧
          usub ptr sizeof_metadata ∉ l)) := by
  obtain ⟨l, hi, hk⟩ := disciplined_headers_known h
  refine ⟨l, hi.link, ?_⟩
  rcases ha with c | c | c | c | c | c
  · exact absurd c h1
  · exact absurd (Or.inl c) h2
  · exact absurd (Or.inr c) h2
  · exact absurd h3 c
  · obtain ⟨e, he, hee⟩ := c
    left; rw [← hee]; exact hk.1 e he
  · obtain ⟨k1, k2, k3, _⟩ := hk.2 _ c
    exact Or.inr ⟨k1, k2, k3⟩

/-! ## The registry, the counters and the leak report -/

/-- C11 (what the code does): with two live allocations of 64 bytes the leak report
prints two lines. The caller then stores, inside its own payloads only, the image of a
header of size 140 (at `65592 .. 65647`) and the character `'Z'` (at `65788`), and calls
`m61_free(65648)`, a pointer inside the first payload and not one the allocator
returned. The call passes every check and prints nothing, it sets `base_meta.next` to
the `next` field of the image, which is null, and after it the leak report prints no
line, although both allocations are live and neither was released. -/
theorem leak_report_empty_after_forged_free :
    m61_print_leak_report ex_pair =
      .ok { ex_pair with out := [.leak 2 20 65736 64, .leak 1 10 65592 64] } ∧
    store_allowed ex_pair 65592 ∧ store_allowed ex_pair 65647 ∧
    store_allowed ex_pair 65788 ∧
    ¬ free_allowed ex_forged 65648 ∧
    m61_free ex_forged 65648 3 30 = .ok ex_forged_freed ∧
    ex_forged_freed.out = [] ∧
    ex_forged_freed.base_calls = [.malloc 136 65536, .malloc 136 65680, .free 65592] ∧
    (ex_forged_freed.mem 65536).unfreed = unfreed_id ∧
    (ex_forged_freed.mem 65680).unfreed = unfreed_id ∧
    m61_print_leak_report ex_forged_freed = .ok { ex_forged_freed with out := [] } := by
  refine ⟨rfl, by decide, by decide, by decide, by decide, rfl, rfl, rfl, rfl, rfl, rfl⟩

/-- C11 (amended): after every sequence of calls of a caller that keeps to its blocks
(`Disciplined`), in which `nalloc` allocations succeeded and `nfree` releases passed all
checks, `m61_print_leak_report` returns and prints exactly one line for each allocation
not yet released, `nalloc - nfree` lines in all (latest allocation first), and nothing
for a released one; the line of an allocation carries the file and line of its call
site, its payload pointer (header + `sizeof(metadata)`) and its requested size, printed
through `%lli` (the size itself below `2^63`). -/
theorem leak_report_lists_live (s : State) (g : Ghost) (h : Disciplined s g) :
    m61_print_leak_report s = .ok { s with out := s.out ++ g.live.map leak_line } ∧
    (g.live.map leak_line).length = g.nalloc - g.nfree ∧ g.nfree ≤ g.nalloc ∧
    (∀ e ∈ g.live, ∃ a, e = alloc_of s a ∧ e.ptr = a + sizeof_metadata) ∧
    (∀ e ∈ g.live, e.size < 2 ^ 63 → leak_line e = .leak e.file e.line e.ptr e.size) := by
  obtain ⟨l, hl⟩ := history_inv (disciplined_history h)
  have hlen := Inv_length hl.inv
  have hloop := leak_loop_linked l s.base_meta_addr (WORD + 1) hl.inv.link
    (by unfold WORD at *; omega)
  have hmap : (l.map fun a => Diag.leak (s.mem a).file (s.mem a).line
      (uadd a sizeof_metadata) (to_signed (s.mem a).size)) = g.live.map leak_line := by
    rw [hl.live, List.map_map]
    apply List.map_congr_left
    intro a ha
    have := Inv_lt_word hl.inv a ha
    have e : uadd a sizeof_metadata = a + sizeof_metadata :=
      uadd_eq (by unfold sizeof_metadata WORD at *; omega)
    simp only [Function.comp, leak_line, alloc_of, e]
  refine ⟨?_, ?_, ?_, ?_, ?_⟩
  · simp only [m61_print_leak_report, hloop, hmap]
  · rw [List.length_map, hl.count]; omega
  · rw [hl.count]; omega
  · intro e he
    rw [hl.live] at he
    obtain ⟨a, _, ha⟩ := List.mem_map.1 he
    exact ⟨a, ha.symm, by rw [← ha]; rfl⟩
  · intro e _ hsz
    simp only [leak_line, to_signed, if_pos hsz]

theorem leak_report_lists_live_witness :
    Disciplined ex_state4 ex_ghost3 ∧
    (m61_print_leak_report ex_state4 =
      .ok { ex_state4 with out := ex_state4.out ++ ex_ghost3.live.map leak_line } ∧
    (ex_ghost3.live.map leak_line).length = ex_ghost3.nalloc - ex_ghost3.nfree ∧
    ex_ghost3.nfree ≤ ex_ghost3.nalloc ∧
    (∀ e ∈ ex_ghost3.live, ∃ a, e = alloc_of ex_state4 a ∧ e.ptr = a + sizeof_metadata) ∧
    (∀ e ∈ ex_ghost3.live, e.size < 2 ^ 63 → leak_line e = .leak e.file e.line e.ptr e.size)) :=
  ⟨ex_disciplined4, leak_report_lists_live ex_state4 ex_ghost3 ex_disciplined4⟩

/-- C19 (what the code does): in the state `ex_forged` the caller has written to no
header, only inside its two payloads. The call `m61_free(65648)` of the pointer inside
the first payload passes every check; after it no record is linked after the sentinel,
while `nactive` is 1 and `active_size` is `2^64 - 12`, and the headers of the two
allocations still carry the live marker. -/
theorem counters_differ_from_registry_after_forged_free :
    store_allowed ex_pair 65592 ∧ store_allowed ex_pair 65647 ∧
    store_allowed ex_pair 65788 ∧
    ¬ free_allowed ex_forged 65648 ∧
    m61_free ex_forged 65648 3 30 = .ok ex_forged_freed ∧
    registry ex_forged_freed [] ∧
    ex_forged_freed.global_stats.nactive = 1 ∧
    ex_forged_freed.global_stats.active_size = 18446744073709551604 ∧
    (ex_forged_freed.mem 65536).unfreed = unfreed_id ∧
    (ex_forged_freed.mem 65680).unfreed = unfreed_id ∧
    ¬ ∃ l, registry ex_forged_freed l ∧ ex_forged_freed.global_stats.nactive = l.length := by
  refine ⟨by decide, by decide, by decide, by decide, rfl, rfl, rfl, rfl, rfl, rfl, ?_⟩
  rintro ⟨l, hl, hn⟩
  cases l with
  | nil => exact absurd hn (by decide)
  | cons a t =>
    have h1 : (ex_forged_freed.mem ex_forged_freed.base_meta_addr).next = a := hl.1
    have h2 : (ex_forged_freed.mem ex_forged_freed.base_meta_addr).next = 0 := rfl
    exact hl.2.1 (by rw [← h1, h2])

/-- C19 (amended): in every state reached from the initial state through calls of
`m61_malloc`, `m61_calloc` and `m61_free` by a caller that keeps to its blocks
(`Disciplined`: stores go to the blocks it holds, after their headers, and `m61_free` is
given the null pointer, a pointer outside the heap bounds, a pointer that is not
aligned, the payload pointer of a live allocation or that of a released allocation whose
header is intact), there is a list `l` of the headers linked after the sentinel
`base_meta` along the `next` pointers (up to the null pointer), `nactive` is the number
of these headers and `active_size` is the sum of their `size` fields; the same holds in
the state after every further call of `m61_free` with such a pointer, whether the call
releases the allocation or is rejected. -/
theorem active_counters_match_registry (s : State) (g : Ghost) (h : Disciplined s g) :
    (∃ l, registry s l ∧ s.global_stats.nactive = l.length ∧
      s.global_stats.active_size = (l.map fun a => (s.mem a).size).sum) ∧
    (∀ ptr file line s1, ptr < WORD → free_allowed s ptr →
      m61_free s ptr file line = .ok s1 →
      ∃ l1, registry s1 l1 ∧ s1.global_stats.nactive = l1.length ∧
        s1.global_stats.active_size = (l1.map fun a => (s1.mem a).size).sum) := by
  constructor
  · obtain ⟨l, hl⟩ := history_inv (disciplined_history h)
    exact ⟨l, hl.inv.link, hl.inv.count, hl.inv.total⟩
  · intro ptr file line s1 hp ha hr
    obtain ⟨l, hl⟩ := history_inv (disciplined_history (Disciplined.free h hp ha hr))
    exact ⟨l, hl.inv.link, hl.inv.count, hl.inv.total⟩

theorem active_counters_match_registry_witness :
    Disciplined ex_state4 ex_ghost3 ∧
    ((∃ l, registry ex_state4 l ∧ ex_state4.global_stats.nactive = l.length ∧
      ex_state4.global_stats.active_size = (l.map fun a => (ex_state4.mem a).size).sum) ∧
    (∀ ptr file line s1, ptr < WORD → free_allowed ex_state4 ptr →
      m61_free ex_state4 ptr file line = .ok s1 →
      ∃ l1, registry s1 l1 ∧ s1.global_stats.nactive = l1.length ∧
        s1.global_stats.active_size = (l1.map fun a => (s1.mem a).size).sum)) :=
  ⟨ex_disciplined4, active_counters_match_registry ex_state4 ex_ghost3 ex_disciplined4⟩

/-- C20 (what the code does): with 128 bytes active in two allocations, the call
`m61_free(65648)` in `ex_forged` passes every check and subtracts the size 140 of the
image that the caller stored in its payload: `active_size` becomes `2^64 - 12`. Then
`active_size + sizeof(metadata) + 1024` exceeds `SIZE_MAX`, the second subtraction of the
size check wraps (`11 - 56`), and a request of 64 bytes passes the check although
`active_size + 64` wraps. -/
theorem size_check_wraps_after_forged_free :
    ex_pair.global_stats.active_size = 128 ∧
    ¬ free_allowed ex_forged 65648 ∧
    m61_free ex_forged 65648 3 30 = .ok ex_forged_freed ∧
    ex_forged_freed.global_stats.active_size = 18446744073709551604 ∧
    ¬ (ex_forged_freed.global_stats.active_size + sizeof_metadata + 1024 ≤ SIZE_MAX) ∧
    usub SIZE_MAX ex_forged_freed.global_stats.active_size = 11 ∧
    usub (usub SIZE_MAX ex_forged_freed.global_stats.active_size) sizeof_metadata =
      18446744073709551571 ∧
    size_limit ex_forged_freed.global_stats.active_size = 18446744073709550547 ∧
    ¬ (64 ≥ size_limit ex_forged_freed.global_stats.active_size) ∧
    ex_forged_freed.global_stats.active_size + 64 ≥ WORD := by
  refine ⟨rfl, by decide, rfl, rfl, by decide, by decide, by decide, by decide, by decide,
    by decide⟩

/-- C20 (amended): in every state reached through calls of `m61_malloc`, `m61_calloc`
and `m61_free` by a caller that keeps to its blocks (`Disciplined`),
`active_size + sizeof(metadata) + 1024 ≤ SIZE_MAX`, so none of the three subtractions of
the size check wraps around and the limit is
`SIZE_MAX - active_size - sizeof(metadata) - 1024`; and for every request `sz` that
passes the check, neither `sz + sizeof(metadata) + 16` (passed to `base_malloc`) nor
`active_size + sz` wraps modulo `2^64`. -/
theorem size_check_never_wraps (s : State) (g : Ghost) (h : Disciplined s g) :
    s.global_stats.active_size + sizeof_metadata + 1024 ≤ SIZE_MAX ∧
    usub SIZE_MAX s.global_stats.active_size = SIZE_MAX - s.global_stats.active_size ∧
    usub (SIZE_MAX - s.global_stats.active_size) sizeof_metadata =
      SIZE_MAX - s.global_stats.active_size - sizeof_metadata ∧
    size_limit s.global_stats.active_size =
      SIZE_MAX - s.global_stats.active_size - sizeof_metadata - 1024 ∧
    ∀ sz, ¬ sz ≥ size_limit s.global_stats.active_size →
      sz + sizeof_metadata + 16 < WORD ∧
      uadd (uadd sz sizeof_metadata) 16 = sz + sizeof_metadata + 16 ∧
      s.global_stats.active_size + sz < WORD ∧
      uadd s.global_stats.active_size sz = s.global_stats.active_size + sz := by
  obtain ⟨l, hh⟩ := history_inv (disciplined_history h)
  have hl := hh.inv
  have hb := hl.bound
  refine ⟨Nat.le_of_lt hb, usub_eq (by unfold sizeof_metadata at hb; omega),
    usub_eq (by unfold sizeof_metadata at *; omega), size_limit_eq (Nat.le_of_lt hb), ?_⟩
  intro sz hg
  have hgb := guard_bound hl (Nat.not_le.1 hg)
  have h1 : sz + sizeof_metadata + 16 < WORD := by
    unfold sizeof_metadata SIZE_MAX WORD at *; omega
  have h2 : s.global_stats.active_size + sz < WORD := by
    unfold sizeof_metadata SIZE_MAX WORD at *; omega
  refine ⟨h1, ?_, h2, uadd_eq h2⟩
  have h3 : uadd sz sizeof_metadata = sz + sizeof_metadata :=
    uadd_eq (by unfold sizeof_metadata WORD at *; omega)
  rw [h3, uadd_eq h1]

theorem size_check_never_wraps_witness :
    Disciplined ex_state4 ex_ghost3 ∧
    (ex_state4.global_stats.active_size + sizeof_metadata + 1024 ≤ SIZE_MAX ∧
    usub SIZE_MAX ex_state4.global_stats.active_size =
      SIZE_MAX - ex_state4.global_stats.active_size ∧
    usub (SIZE_MAX - ex_state4.global_stats.active_size) sizeof_metadata =
      SIZE_MAX - ex_state4.global_stats.active_size - sizeof_metadata ∧
    size_limit ex_state4.global_stats.active_size =
      SIZE_MAX - ex_state4.global_stats.active_size - sizeof_metadata - 1024 ∧
    ∀ sz, ¬ sz ≥ size_limit ex_state4.global_stats.active_size →
      sz + sizeof_metadata + 16 < WORD ∧
      uadd (uadd sz sizeof_metadata) 16 = sz + sizeof_metadata + 16 ∧
      ex_state4.global_stats.active_size + sz < WORD ∧
      uadd ex_state4.global_stats.active_size sz = ex_state4.global_stats.active_size + sz) :=
  ⟨ex_disciplined4, size_check_never_wraps ex_state4 ex_ghost3 ex_disciplined4⟩

/-! ## Sorting -/

theorem sort_insert_eq {α : Type} (less : α → α → Bool) (x : α) :
    ∀ l : List α, sort_insert less x l =
      List.orderedInsert (fun a b => less b a = false) x l
  | [] => rfl
  | y :: ys => by
    simp only [sort_insert, List.orderedInsert, sort_insert_eq less x ys]
    by_cases h : less y x = true
    · simp [h]
    · have h1 : less y x = false := by simpa using h
      simp [h1]

theorem std_sort_eq {α : Type} (less : α → α → Bool) :
    ∀ l : List α, std_sort less l = List.insertionSort (fun a b => less b a = false) l
  | [] => rfl
  | x :: xs => by
    simp only [std_sort, List.insertionSort, std_sort_eq less xs, sort_insert_eq]

theorem std_sort_perm {α : Type} (less : α → α → Bool) (l : List α) :
    (std_sort less l).Perm l := by
  rw [std_sort_eq]; exact List.perm_insertionSort _ l

theorem lineCompare_iff (a b : hhstruct) :
    lineCompare a b = true ↔ key_lt a.file_line b.file_line := by
  simp only [lineCompare, key_lt, decide_eq_true_eq]
  constructor
  · rintro (h | ⟨h1, h2⟩)
    · exact Or.inl h
    · by_cases c : a.file_line.1 < b.file_line.1
      · exact Or.inl c
      · exact Or.inr ⟨by omega, h2⟩
  · rintro (h | ⟨h1, h2⟩)
    · exact Or.inl h
    · exact Or.inr ⟨by omega, h2⟩

/-- The insertion sort keeps the promise of `std::sort` for `lineCompare`. -/
theorem std_sort_sorts_lineCompare : sorts_by lineCompare (std_sort lineCompare) := by
  intro l
  refine ⟨std_sort_perm _ l, ?_⟩
  rw [std_sort_eq]
  have inst1 : IsTotal hhstruct (fun a b => lineCompare b a = false) := ⟨by
    intro a b
    by_cases h1 : lineCompare b a = true
    · right
      by_cases h2 : lineCompare a b = true
      · rw [lineCompare_iff] at h1 h2
        unfold key_lt at h1 h2
        omega
      · simpa using h2
    · left; simpa using h1⟩
  have inst2 : IsTrans hhstruct (fun a b => lineCompare b a = false) := ⟨by
    intro a b c h1 h2
    have g1 : ¬ lineCompare b a = true := by simp [h1]
    have g2 : ¬ lineCompare c b = true := by simp [h2]
    have g3 : ¬ lineCompare c a = true := by
      rw [lineCompare_iff] at g1 g2 ⊢
      unfold key_lt at g1 g2 ⊢
      omega
    simpa using g3⟩
  exact List.sorted_insertionSort (fun a b : hhstruct => lineCompare b a = false) l

/-- The insertion sort keeps the promise of `std::sort` for `sizeCompare`. -/
theorem std_sort_sorts_sizeCompare : sorts_by sizeCompare (std_sort sizeCompare) := by
  intro l
  refine ⟨std_sort_perm _ l, ?_⟩
  rw [std_sort_eq]
  have inst1 : IsTotal hhstruct (fun a b => sizeCompare b a = false) := ⟨by
    intro a b
    simp only [sizeCompare, decide_eq_false_iff_not]
    omega⟩
  have inst2 : IsTrans hhstruct (fun a b => sizeCompare b a = false) := ⟨by
    intro a b c
    simp only [sizeCompare, decide_eq_false_iff_not]
    omega⟩
  exact List.sorted_insertionSort (fun a b : hhstruct => sizeCompare b a = false) l

/-- A log sorted with `lineCompare`: no sample has a key below the key of an earlier
one. -/
theorem sorted_keys {l : List hhstruct}
    (h : l.Pairwise (fun a b => lineCompare b a = false)) :
    l.Pairwise (fun a b => ¬ key_lt b.file_line a.file_line) := by
  refine List.Pairwise.imp ?_ h
  intro a b hab c
  have hc := (lineCompare_iff b a).2 c
  rw [hab] at hc
  cases hc

/-- The grouping loop over indices within the vector is a fold of `group_step`. -/
theorem group_loop_eq_fold (oob : Option hhstruct) :
    ∀ (suf pre result : List hhstruct), result ≠ [] → (pre ++ suf).length < 2 ^ 32 →
      group_loop oob (pre ++ suf) suf.length pre.length result =
        .ok (suf.foldl group_step result)
  | [], pre, result, _, _ => by simp [group_loop]
  | h :: t, pre, result, hne, hlen => by
    have hl : pre.length < 2 ^ 32 := by
      simp only [List.length_append, List.length_cons] at hlen; omega
    have hv : vec_at oob (pre ++ h :: t) (pre.length % 2 ^ 32) = .ok h := by
      have hg : (pre ++ h :: t).get? pre.length = some h := by
        rw [List.get?_eq_getElem?, List.getElem?_append_right (Nat.le_refl _)]
        simp
      rw [Nat.mod_eq_of_lt hl]
      simp only [vec_at, hg]
    obtain ⟨b, hb⟩ : ∃ b, result.getLast? = some b := by
      cases hr : result.getLast? with
      | none => exact absurd (List.getLast?_eq_none_iff.1 hr) hne
      | some b => exact ⟨b, rfl⟩
    have ih : ∀ r : List hhstruct, r ≠ [] →
        group_loop oob (pre ++ h :: t) t.length (pre.length + 1) r =
          .ok (t.foldl group_step r) := by
      intro r hr
      have := group_loop_eq_fold oob t (pre ++ [h]) r hr (by simpa using hlen)
      simpa using this
    simp only [List.length_cons, group_loop, hv, hb, List.foldl_cons, group_step]
    split_ifs with c
    · exact ih _ (by simp)
    · exact ih _ (by simp)

theorem key_sum_append (pre : List hhstruct) (h : hhstruct) (k : Nat × Int) :
    key_sum (pre ++ [h]) k = key_sum pre k + (if h.file_line = k then h.size else 0) := by
  unfold key_sum
  by_cases c : h.file_line = k
  · simp [List.filter_append, c]
  · simp [List.filter_append, c]

theorem key_lt_irrefl (k : Nat × Int) : ¬ key_lt k k := by
  unfold key_lt; omega

theorem key_lt_trans {a b c : Nat × Int} (h1 : key_lt a b) (h2 : key_lt b c) : key_lt a c := by
  unfold key_lt at *; omega

theorem key_lt_of_ne {a b : Nat × Int} (h1 : a ≠ b) (h2 : ¬ key_lt a b) : key_lt b a := by
  have : ¬ (a.1 = b.1 ∧ a.2 = b.2) := fun c => h1 (Prod.ext c.1 c.2)
  unfold key_lt at *; omega

theorem key_sum_nil_of_not_mem (pre : List hhstruct) (k : Nat × Int)
    (h : k ∉ pre.map fun x => x.file_line) : key_sum pre k = 0 := by
  unfold key_sum
  have : pre.filter (fun x => decide (x.file_line = k)) = [] := by
    rw [List.filter_eq_nil_iff]
    intro a ha c
    exact h (List.mem_map.2 ⟨a, ha, by simpa using c⟩)
  rw [this]; rfl

theorem key_lt_ne {a b : Nat × Int} (h : key_lt a b) : a ≠ b := by
  intro c; subst c; exact key_lt_irrefl a h

/-- One round of the grouping keeps the grouping invariant, when the key of the new
sample is not below the key of a sample seen before. -/
theorem group_step_groups (pre result : List hhstruct) (h : hhstruct)
    (hg : groups_of pre result)
    (hmax : ∀ x ∈ pre, ¬ key_lt h.file_line x.file_line)
    (hsz : h.size < WORD) :
    groups_of (pre ++ [h]) (group_step result h) := by
  obtain ⟨hne, hpw, hs, hk, hc⟩ := hg
  obtain ⟨b, hb⟩ : ∃ b, result.getLast? = some b := by
    cases hr : result.getLast? with
    | none => exact absurd (List.getLast?_eq_none_iff.1 hr) hne
    | some b => exact ⟨b, rfl⟩
  obtain ⟨ini, rfl⟩ : ∃ ini, result = ini ++ [b] :=
    ⟨result.dropLast, (List.dropLast_append_getLast? b hb).symm⟩
  have e2 : (ini ++ [b]).dropLast = ini := by simp
  have hpw1 : (ini.map fun g => g.file_line).Pairwise key_lt := by
    rw [List.map_append, List.pairwise_append] at hpw; exact hpw.1
  have hib : ∀ g ∈ ini, key_lt g.file_line b.file_line := by
    intro g hgi
    rw [List.map_append, List.pairwise_append] at hpw
    exact hpw.2.2 _ (List.mem_map.2 ⟨g, hgi, rfl⟩) _ (by simp)
  have hbpre : b.file_line ∈ pre.map fun x => x.file_line := hk b (by simp)
  have hbh : ¬ key_lt h.file_line b.file_line := by
    obtain ⟨x, hx, hxe⟩ := List.mem_map.1 hbpre
    have hxe1 : x.file_line = b.file_line := hxe
    have := hmax x hx
    rwa [hxe1] at this
  simp only [group_step, hb, e2]
  split_ifs with c
  · refine ⟨by simp, ?_, ?_, ?_, ?_⟩
    · simpa [List.map_append] using hpw
    · intro g hgm
      rw [key_sum_append]
      rcases List.mem_append.1 hgm with hgi | hgl
      · have hne1 : h.file_line ≠ g.file_line := by
          rw [c]; exact fun e => key_lt_ne (hib g hgi) e.symm
        rw [if_neg hne1, Nat.add_zero]
        exact hs g (List.mem_append_left _ hgi)
      · have hge : g = { b with size := uadd b.size h.size } := by simpa using hgl
        subst hge
        simp only [c, if_true]
        rw [hs b (by simp)]
        unfold uadd
        rw [Nat.add_mod, Nat.mod_mod, ← Nat.add_mod]
    · intro g hgm
      rcases List.mem_append.1 hgm with hgi | hgl
      · have := hk g (List.mem_append_left _ hgi)
        rw [List.map_append]; exact List.mem_append_left _ this
      · have hge : g = { b with size := uadd b.size h.size } := by simpa using hgl
        subst hge
        rw [List.map_append]; exact List.mem_append_left _ hbpre
    · intro x hx
      rcases List.mem_append.1 hx with hxp | hxl
      · have := hc x hxp
        simpa [List.map_append] using this
      · have hxe : x = h := by simpa using hxl
        subst hxe
        simp [List.map_append, c]
  · have hbl : key_lt b.file_line h.file_line :=
      key_lt_of_ne c hbh
    have hall : ∀ g ∈ ini ++ [b], key_lt g.file_line h.file_line := by
      intro g hgm
      rcases List.mem_append.1 hgm with hgi | hgl
      · exact key_lt_trans (hib g hgi) hbl
      · have hge : g = b := by simpa using hgl
        subst hge; exact hbl
    have hnew : h.file_line ∉ pre.map fun x => x.file_line := by
      intro hm
      obtain ⟨x, hx, hxe⟩ := List.mem_map.1 hm
      obtain ⟨g, hgm, hge⟩ := List.mem_map.1 (hc x hx)
      have hxe1 : x.file_line = h.file_line := hxe
      have hge1 : g.file_line = x.file_line := hge
      exact key_lt_ne (hall g hgm) (by rw [hge1, hxe1])
    refine ⟨by simp, ?_, ?_, ?_, ?_⟩
    · rw [List.map_append, List.pairwise_append]
      refine ⟨hpw, by simp, ?_⟩
      intro k hkm k2 hk2
      obtain ⟨g, hgm, hge⟩ := List.mem_map.1 hkm
      have : k2 = h.file_line := by simpa using hk2
      subst this
      have hge1 : g.file_line = k := hge
      rw [← hge1]; exact hall g hgm
    · intro g hgm
      rw [key_sum_append]
      rcases List.mem_append.1 hgm with hgi | hgl
      · have hne1 : h.file_line ≠ g.file_line := fun e => key_lt_ne (hall g hgi) e.symm
        rw [if_neg hne1, Nat.add_zero]
        exact hs g hgi
      · have hge : g = h := by simpa using hgl
        subst hge
        rw [key_sum_nil_of_not_mem pre _ hnew, if_pos rfl, Nat.zero_add, Nat.mod_eq_of_lt hsz]
    · intro g hgm
      rw [List.map_append]
      rcases List.mem_append.1 hgm with hgi | hgl
      · exact List.mem_append_left _ (hk g hgi)
      · have hge : g = h := by simpa using hgl
        subst hge; simp
    · intro x hx
      rw [List.map_append]
      rcases List.mem_append.1 hx with hxp | hxl
      · exact List.mem_append_left _ (hc x hxp)
      · have hxe : x = h := by simpa using hxl
        subst hxe; simp

/-- The rounds of the grouping over a sorted rest of the log keep the grouping
invariant. -/
theorem fold_groups :
    ∀ (suf pre result : List hhstruct), groups_of pre result →
      (pre ++ suf).Pairwise (fun a b => ¬ key_lt b.file_line a.file_line) →
      (∀ h ∈ suf, h.size < WORD) →
      groups_of (pre ++ suf) (suf.foldl group_step result)
  | [], pre, result, hg, _, _ => by simpa using hg
  | h :: t, pre, result, hg, hp, hsz => by
    have hmax : ∀ x ∈ pre, ¬ key_lt h.file_line x.file_line := by
      intro x hx
      rw [List.pairwise_append] at hp
      exact hp.2.2 x hx h (by simp)
    have h1 := group_step_groups pre result h hg hmax (hsz h (by simp))
    have h2 := fold_groups t (pre ++ [h]) (group_step result h) h1
      (by simpa using hp) (fun y hy => hsz y (List.mem_cons_of_mem _ hy))
    simpa using h2

theorem groups_of_single (h0 : hhstruct) (hsz : h0.size < WORD) : groups_of [h0] [h0] := by
  refine ⟨by simp, by simp, ?_, by simp, by simp⟩
  intro g hg
  have : g = h0 := by simpa using hg
  subst this
  simp [key_sum, Nat.mod_eq_of_lt hsz]

theorem key_sum_perm {l1 l2 : List hhstruct} (h : l1.Perm l2) (k : Nat × Int) :
    key_sum l1 k = key_sum l2 k := by
  unfold key_sum
  exact ((h.filter _).map _).sum_eq

/-- The first part of the report on a non-empty log of fewer than `2^32` samples
returns, whatever lies outside the vectors: the rounds of the grouping, started with the
first sample of the sorted log and run over the others. -/
theorem hh_grouped_eq_fold
    (sort : (hhstruct → hhstruct → Bool) → List hhstruct → List hhstruct)
    (hs1 : sorts_by lineCompare (sort lineCompare))
    (log : List hhstruct) (hne : log ≠ []) (hlen : log.length < 2 ^ 32) :
    ∃ h0 t, sort lineCompare log = h0 :: t ∧
      ∀ oob, hh_grouped sort oob log = .ok (t.foldl group_step [h0]) := by
  have hperm := (hs1 log).1
  have hl : (sort lineCompare log).length = log.length := hperm.length_eq
  cases hv : sort lineCompare log with
  | nil =>
    rw [hv] at hl
    exact absurd (List.length_eq_zero.1 hl.symm) hne
  | cons h0 t =>
    rw [hv] at hl
    refine ⟨h0, t, rfl, ?_⟩
    intro oob
    have hlt : t.length + 1 < 2 ^ 32 := by
      simp only [List.length_cons] at hl; omega
    have h1 : vec_at oob (h0 :: t) 0 = .ok h0 := by simp [vec_at]
    have h2 : group_rounds (h0 :: t).length = some t.length := by
      simp only [group_rounds, List.length_cons]
      rw [if_neg (by omega), if_pos hlt]
      simp
    have h3 := group_loop_eq_fold oob t [h0] [h0] (by simp)
      (by simpa using hlt)
    simp only [List.singleton_append, List.length_singleton] at h3
    simp only [hh_grouped, hv, h1, h2, h3]

/-- The list returned by the first part of the report is the grouping of the log. -/
theorem hh_grouped_groups
    (sort : (hhstruct → hhstruct → Bool) → List hhstruct → List hhstruct)
    (hs1 : sorts_by lineCompare (sort lineCompare))
    (log : List hhstruct) (hne : log ≠ [])
    (hlen : log.length < 2 ^ 32) (hsz : ∀ h ∈ log, h.size < WORD) :
    ∃ grouped, (∀ oob, hh_grouped sort oob log = .ok grouped) ∧ groups_of log grouped := by
  obtain ⟨h0, t, hv, hret⟩ := hh_grouped_eq_fold sort hs1 log hne hlen
  have hperm := (hs1 log).1
  have hsorted := sorted_keys (hs1 log).2
  rw [hv] at hperm hsorted
  have hsz1 : ∀ h ∈ h0 :: t, h.size < WORD := fun h hh => hsz h (hperm.subset hh)
  have hg := fold_groups t [h0] [h0] (groups_of_single h0 (hsz1 h0 (by simp)))
    (by simpa using hsorted) (fun y hy => hsz1 y (List.mem_cons_of_mem _ hy))
  refine ⟨t.foldl group_step [h0], hret, ?_⟩
  obtain ⟨g1, g2, g3, g4, g5⟩ := hg
  simp only [List.singleton_append] at g3 g4 g5
  refine ⟨g1, g2, ?_, ?_, ?_⟩
  · intro g hgm
    rw [g3 g hgm, key_sum_perm hperm]
  · intro g hgm
    exact (hperm.map _).subset (g4 g hgm)
  · intro h hh
    exact g5 h (hperm.symm.subset hh)

theorem pairwise_key_lt_nodup (l : List (Nat × Int)) (h : l.Pairwise key_lt) : l.Nodup :=
  h.imp (fun hab => key_lt_ne hab)

/-! ## The printing loop -/

theorem heavy_lines_append (T : F32) (xs ys : List hhstruct) :
    heavy_lines T (xs ++ ys) = heavy_lines T xs ++ heavy_lines T ys := by
  simp [heavy_lines, List.filter_append]

theorem heavy_lines_cons (T : F32) (h : hhstruct) (hs : List hhstruct) :
    heavy_lines T (h :: hs) = heavy_lines T [h] ++ heavy_lines T hs :=
  heavy_lines_append T [h] hs

theorem heavy_lines_single (T : F32) (h : hhstruct) :
    heavy_lines T [h] = if is_heavy T h = true then [heavy_line T h] else [] := by
  by_cases c : is_heavy T h = true
  · simp [heavy_lines, c]
  · simp [heavy_lines, c]

/-- The printing loop entered with an index `i` inside the vector: it visits the elements
at `i`, `i - 1`, ..., `1`, in this order. -/
theorem print_loop_tail (oob : Option hhstruct) (r0 : hhstruct) (t : List hhstruct)
    (T : F32) :
    ∀ i, i ≤ t.length →
      print_loop oob (r0 :: t) T i = .ok (heavy_lines T (t.take i).reverse)
  | 0, _ => by simp [print_loop, heavy_lines]
  | i + 1, hi => by
    have hlt : i < t.length := hi
    obtain ⟨x, hx⟩ : ∃ x, t.get? i = some x := ⟨t.get ⟨i, hlt⟩, List.get?_eq_get hlt⟩
    have hv : vec_at oob (r0 :: t) (i + 1) = .ok x := by
      have hg : (r0 :: t).get? (i + 1) = some x := by
        rw [List.get?_cons_succ, hx]
      simp only [vec_at, hg]
    have ih := print_loop_tail oob r0 t T i (Nat.le_of_lt hlt)
    have ht : (t.take (i + 1)).reverse = x :: (t.take i).reverse := by
      have hx1 : t[i]? = some x := by rw [← List.get?_eq_getElem?]; exact hx
      rw [List.take_succ, List.reverse_append, hx1]
      rfl
    rw [ht, heavy_lines_cons, heavy_lines_single]
    simp only [print_loop, hv, ih]
    by_cases c : is_heavy T x = true
    · have c1 : F32.ge_nat (percent_of x T) 20 = true := c
      simp [c, c1, heavy_line]
    · have c1 : ¬ F32.ge_nat (percent_of x T) 20 = true := c
      simp [c, c1]

/-- The printing loop as the report enters it, with the index `result.size()`: the first
read is outside the vector, and when it yields the object `j` the loop goes on with the
elements at `size - 1`, ..., `1`. -/
theorem print_loop_full (j r0 : hhstruct) (t : List hhstruct) (T : F32) :
    print_loop (some j) (r0 :: t) T (r0 :: t).length =
      .ok (heavy_lines T [j] ++ heavy_lines T t.reverse) := by
  have hv : vec_at (some j) (r0 :: t) (t.length + 1) = .ok j := by
    have hg : (r0 :: t).get? (t.length + 1) = none := by
      rw [List.get?_eq_none]; simp
    simp only [vec_at, hg]
  have ih := print_loop_tail (some j) r0 t T t.length (Nat.le_refl _)
  rw [List.take_length] at ih
  rw [heavy_lines_single]
  simp only [List.length_cons, print_loop, hv, ih]
  by_cases c : is_heavy T j = true
  · have c1 : F32.ge_nat (percent_of j T) 20 = true := c
    simp [c, c1, heavy_line]
  · have c1 : ¬ F32.ge_nat (percent_of j T) 20 = true := c
    simp [c, c1]

/-- The report from its first part: when the grouping returns `grouped` and the printing
loop returns the lines `ds` on the ranked list, the report returns with the log sorted
and the lines printed. -/
theorem report_with_of_parts
    (sort : (hhstruct → hhstruct → Bool) → List hhstruct → List hhstruct)
    (oob : Option hhstruct) (s : State) (grouped : List hhstruct) (ds : List Diag)
    (h : hh_grouped sort oob s.hhvec = .ok grouped)
    (hp : print_loop oob (sort sizeCompare grouped) (total_size1 (sort sizeCompare grouped))
      (sort sizeCompare grouped).length = .ok ds) :
    m61_print_heavy_hitter_report_with sort oob s =
      .ok { s with hhvec := sort lineCompare s.hhvec, out := s.out ++ ds } := by
  unfold hh_grouped at h
  unfold m61_print_heavy_hitter_report_with
  simp only [] at h ⊢
  cases h0 : vec_at oob (sort lineCompare s.hhvec) 0 with
  | error e => rw [h0] at h; cases h
  | ok x =>
    rw [h0] at h
    simp only [] at h ⊢
    cases h1 : group_rounds (sort lineCompare s.hhvec).length with
    | none => rw [h1] at h; cases h
    | some n =>
      rw [h1] at h
      simp only [] at h ⊢
      rw [h]
      simp only [hp]

/-- The report on a log whose grouping returns the non-empty list `grouped`, when the
read outside the ranked list yields the object `j`: the log is left sorted, and the lines
printed are those of `j` and of the groups ranked last to second, in this order. -/
theorem report_with_lines
    (sort : (hhstruct → hhstruct → Bool) → List hhstruct → List hhstruct)
    (hs2 : sorts_by sizeCompare (sort sizeCompare))
    (j : hhstruct) (s : State) (grouped : List hhstruct) (hne : grouped ≠ [])
    (h : hh_grouped sort (some j) s.hhvec = .ok grouped) :
    m61_print_heavy_hitter_report_with sort (some j) s =
      .ok { s with
        hhvec := sort lineCompare s.hhvec
        out := s.out ++ (heavy_lines (total_size1 (sort sizeCompare grouped)) [j] ++
          heavy_lines (total_size1 (sort sizeCompare grouped))
            (sort sizeCompare grouped).tail.reverse) } := by
  have hperm := (hs2 grouped).1
  cases hr : sort sizeCompare grouped with
  | nil =>
    rw [hr] at hperm
    exact absurd hperm.symm.eq_nil hne
  | cons r0 t =>
    have hp := print_loop_full j r0 t (total_size1 (r0 :: t))
    rw [← hr] at hp
    have := report_with_of_parts sort (some j) s grouped _ h hp
    rw [this, hr]
    rfl

/-! ## The grouping is determined by the samples, and keeps their sum -/

theorem sum_ite_eq (a : Nat × Int) (c : Nat) :
    ∀ K : List (Nat × Int), K.Nodup → a ∈ K →
      (K.map fun k => if a = k then c else 0).sum = c
  | [], _, h => by simp at h
  | k :: K, hn, h => by
    have hn1 := List.nodup_cons.1 hn
    have hz : ∀ K1 : List (Nat × Int), a ∉ K1 →
        (K1.map fun k => if a = k then c else 0).sum = 0 := by
      intro K1
      induction K1 with
      | nil => intro _; rfl
      | cons x xs ih =>
        intro hx
        have hx1 : a ≠ x := fun e => hx (by rw [e]; simp)
        have hx2 : a ∉ xs := fun e => hx (List.mem_cons_of_mem _ e)
        simp only [List.map_cons, List.sum_cons, if_neg hx1, ih hx2]
    by_cases c1 : a = k
    · subst c1
      simp only [List.map_cons, List.sum_cons, if_true, hz K hn1.1, Nat.add_zero]
    · have hm : a ∈ K := by
        rcases List.mem_cons.1 h with e | e
        · exact absurd e c1
        · exact e
      simp only [List.map_cons, List.sum_cons, if_neg c1, Nat.zero_add,
        sum_ite_eq a c K hn1.2 hm]

theorem key_sum_cons (h : hhstruct) (t : List hhstruct) (k : Nat × Int) :
    key_sum (h :: t) k = (if h.file_line = k then h.size else 0) + key_sum t k := by
  unfold key_sum
  by_cases c : h.file_line = k
  · simp [List.filter_cons, c]
  · simp [List.filter_cons, c]

/-- Over a list of keys without repetition that holds the key of every sample, the sums
of the keys add up to the sum of all sizes. -/
theorem sum_key_sum (K : List (Nat × Int)) (hn : K.Nodup) :
    ∀ log : List hhstruct, (∀ h ∈ log, h.file_line ∈ K) →
      (K.map (key_sum log)).sum = (log.map fun h => h.size).sum
  | [], _ => by
    have : ∀ K1 : List (Nat × Int), (K1.map (key_sum [])).sum = 0 := by
      intro K1
      induction K1 with
      | nil => rfl
      | cons x xs ih => simp only [List.map_cons, List.sum_cons, ih]; rfl
    rw [this]; rfl
  | h :: t, hk => by
    have ih := sum_key_sum K hn t (fun x hx => hk x (List.mem_cons_of_mem _ hx))
    have e : K.map (key_sum (h :: t)) =
        K.map (fun k => (if h.file_line = k then h.size else 0) + key_sum t k) := by
      apply List.map_congr_left
      intro k _
      exact key_sum_cons h t k
    rw [e, List.sum_map_add, sum_ite_eq h.file_line h.size K hn (hk h (by simp)), ih]
    simp

theorem key_sum_le (log : List hhstruct) (k : Nat × Int) :
    key_sum log k ≤ (log.map fun h => h.size).sum := by
  induction log with
  | nil => simp [key_sum]
  | cons h t ih =>
    rw [key_sum_cons]
    simp only [List.map_cons, List.sum_cons]
    split_ifs <;> omega

/-- The sizes of the groups add up to the sum of the sizes of the samples, when this
sum is a 64-bit value. -/
theorem groups_sum {log g : List hhstruct} (h : groups_of log g)
    (hlt : (log.map fun x => x.size).sum < WORD) :
    (g.map fun x => x.size).sum = (log.map fun x => x.size).sum := by
  have hn := pairwise_key_lt_nodup _ h.2.1
  have hk : ∀ x ∈ log, x.file_line ∈ g.map fun y => y.file_line := h.2.2.2.2
  rw [← sum_key_sum _ hn log hk, List.map_map]
  congr 1
  apply List.map_congr_left
  intro x hx
  rw [h.2.2.1 x hx]
  exact Nat.mod_eq_of_lt (Nat.lt_of_le_of_lt (key_sum_le log _) hlt)

/-! ## Sums of small integers in single precision are exact -/

theorem log2_fuel_eq : ∀ fuel n : Nat, n ≤ fuel → F32.log2_fuel fuel n = Nat.log 2 n
  | 0, n, h => by
    have : n = 0 := by omega
    subst this
    simp [F32.log2_fuel]
  | fuel + 1, n, h => by
    unfold F32.log2_fuel
    by_cases c : n < 2
    · rw [if_pos c, Nat.log_of_lt c]
    · have e : Nat.log 2 n = Nat.log 2 (n / 2) + 1 :=
        Nat.log_of_one_lt_of_le (by decide) (by omega)
      rw [if_neg c, log2_fuel_eq fuel (n / 2) (by omega), e]

theorem log_mul_pow (k : Nat) (hk : k ≠ 0) : ∀ j : Nat, Nat.log 2 (k * 2 ^ j) = Nat.log 2 k + j
  | 0 => by simp
  | j + 1 => by
    have h1 : k * 2 ^ (j + 1) = k * 2 ^ j * 2 := by ring
    have h2 : k * 2 ^ j ≠ 0 := Nat.mul_ne_zero hk (by positivity)
    rw [h1, Nat.log_mul_base (by decide) h2, log_mul_pow k hk j]
    omega


/-- Rounding a fraction whose value is an integer below `2^24`, with a power of two as
denominator, gives that integer. -/
theorem round_exact (k j : Nat) (hk : k < 2 ^ 24) :
    ∃ m e, F32.round (k * 2 ^ j) (2 ^ j) = .fin m e ∧
      (F32.toFrac m e).1 = k * (F32.toFrac m e).2 ∧ ∃ i, (F32.toFrac m e).2 = 2 ^ i := by
  by_cases hk0 : k = 0
  · subst hk0
    refine ⟨0, 0, by simp [F32.round], by simp [F32.toFrac], 0, by simp [F32.toFrac]⟩
  · have hL1 : 2 ^ Nat.log 2 k ≤ k := Nat.pow_log_le_self 2 hk0
    have hL2 : k < 2 ^ (Nat.log 2 k + 1) := Nat.lt_pow_succ_log_self (by decide) k
    have hL3 : Nat.log 2 k < 24 := Nat.log_lt_of_lt_pow hk0 hk
    have hn : k * 2 ^ j ≠ 0 := Nat.mul_ne_zero hk0 (by positivity)
    have hc1 : F32.log2_fuel (k * 2 ^ j) (k * 2 ^ j) = Nat.log 2 k + j := by
      rw [log2_fuel_eq _ _ (Nat.le_refl _), log_mul_pow k hk0]
    have hc2 : F32.log2_fuel (2 ^ j) (2 ^ j) = j := by
      rw [log2_fuel_eq _ _ (Nat.le_refl _), Nat.log_pow (by decide)]
    generalize hL : Nat.log 2 k = L at *
    have e1 : ((L + j : Nat) : Int) - (j : Int) = (L : Int) := by push_cast; ring
    have hge : F32.ge_pow2 (k * 2 ^ j) (2 ^ j) (L : Int) = true := by
      have h0 : (L : Int) ≥ 0 := Int.natCast_nonneg L
      have h1 : 2 ^ j * 2 ^ L ≤ k * 2 ^ j := by
        rw [Nat.mul_comm]; exact Nat.mul_le_mul_right _ hL1
      simp only [F32.ge_pow2, if_pos h0, Int.toNat_natCast, decide_eq_true_eq]
      exact h1
    have hsh : (if (L : Int) - 23 < -149 then (-149 : Int) else (L : Int) - 23) = (L : Int) - 23 :=
      if_neg (by omega)
    have hN : (if (L : Int) - 23 ≥ 0 then k * 2 ^ j
        else k * 2 ^ j * 2 ^ (-((L : Int) - 23)).toNat) = k * 2 ^ (23 - L) * 2 ^ j := by
      split_ifs with c
      · have : L = 23 := by omega
        subst this; simp
      · have : (-((L : Int) - 23)).toNat = 23 - L := by omega
        rw [this]; ring
    have hD : (if (L : Int) - 23 ≥ 0 then 2 ^ j * 2 ^ ((L : Int) - 23).toNat else 2 ^ j) =
        2 ^ j := by
      split_ifs with c
      · have : ((L : Int) - 23).toNat = 0 := by omega
        rw [this]; simp
      · rfl
    have hmod : k * 2 ^ (23 - L) * 2 ^ j % 2 ^ j = 0 := Nat.mul_mod_left _ _
    have hdiv : k * 2 ^ (23 - L) * 2 ^ j / 2 ^ j = k * 2 ^ (23 - L) :=
      Nat.mul_div_cancel _ (Nat.two_pow_pos j)
    have hq : k * 2 ^ (23 - L) < 2 ^ 24 := by
      have h1 : k * 2 ^ (23 - L) < 2 ^ (L + 1) * 2 ^ (23 - L) :=
        Nat.mul_lt_mul_of_pos_right hL2 (Nat.two_pow_pos _)
      have h2 : 2 ^ (L + 1) * 2 ^ (23 - L) = 2 ^ 24 := by
        rw [← pow_add]; congr 1; omega
      omega
    have hcond : ¬ (2 * 0 > 2 ^ j ∨ (2 * 0 = 2 ^ j ∧ k * 2 ^ (23 - L) % 2 = 1)) := by
      have := Nat.two_pow_pos j
      omega
    have hbig : ¬ ((L : Int) - 23 > 104) := by omega
    simp only [F32.round, if_neg hn, hc1, hc2, e1, hge, if_true, hsh, hN, hD, hmod, hdiv,
      if_neg hcond, if_neg (Nat.ne_of_lt hq), if_neg hbig]
    refine ⟨k * 2 ^ (23 - L), (L : Int) - 23, rfl, ?_, ?_⟩
    · unfold F32.toFrac
      split_ifs with c
      · have : L = 23 := by omega
        subst this; simp
      · have : (-((L : Int) - 23)).toNat = 23 - L := by omega
        simp only [this]
    · unfold F32.toFrac
      split_ifs with c
      · exact ⟨0, rfl⟩
      · exact ⟨_, rfl⟩


/-- The value of a `float` is the integer `k`, with a power of two as denominator. -/
theorem is_nat_iff (x : F32) (k : Nat) :
    F32.is_nat x k = true ↔ ∃ m e, x = .fin m e ∧ (F32.toFrac m e).1 = k * (F32.toFrac m e).2 := by
  cases x with
  | fin m e =>
    simp only [F32.is_nat, decide_eq_true_eq]
    constructor
    · intro h; exact ⟨m, e, rfl, h⟩
    · rintro ⟨m1, e1, h1, h2⟩
      cases h1; exact h2
  | inf => simp [F32.is_nat]
  | nan => simp [F32.is_nat]

theorem toFrac_den (m : Nat) (e : Int) : ∃ i, (F32.toFrac m e).2 = 2 ^ i := by
  unfold F32.toFrac
  split_ifs
  · exact ⟨0, rfl⟩
  · exact ⟨_, rfl⟩

/-- The conversion of an integer below `2^24` to `float` is exact. -/
theorem ofNat_exact (k : Nat) (hk : k < 2 ^ 24) : F32.is_nat (F32.ofNat k) k = true := by
  obtain ⟨m, e, h1, h2, _⟩ := round_exact k 0 hk
  rw [is_nat_iff]
  refine ⟨m, e, ?_, h2⟩
  simpa [F32.ofNat] using h1

/-- The sum of two `float` values that are integers is exact when it is below `2^24`. -/
theorem add_exact (x y : F32) (a b : Nat) (hx : F32.is_nat x a = true)
    (hy : F32.is_nat y b = true) (hab : a + b < 2 ^ 24) :
    F32.is_nat (F32.add x y) (a + b) = true := by
  obtain ⟨ma, ea, rfl, h1⟩ := (is_nat_iff x a).1 hx
  obtain ⟨mb, eb, rfl, h2⟩ := (is_nat_iff y b).1 hy
  obtain ⟨i1, d1⟩ := toFrac_den ma ea
  obtain ⟨i2, d2⟩ := toFrac_den mb eb
  obtain ⟨m, e, h3, h4, _⟩ := round_exact (a + b) (i1 + i2) hab
  rw [is_nat_iff]
  refine ⟨m, e, ?_, h4⟩
  simp only [F32.add]
  rw [h1, h2, d1, d2, ← h3]
  congr 1
  · ring
  · ring

/-- The grand total of the report is the sum of the sizes in the list, when this sum is
below `2^24`. -/
theorem total_size1_exact (result : List hhstruct)
    (h : (result.map fun x => x.size).sum < 2 ^ 24) :
    F32.is_nat (total_size1 result) (result.map fun x => x.size).sum = true := by
  have key : ∀ (l : List hhstruct) (acc : F32) (a : Nat), F32.is_nat acc a = true →
      a + (l.map fun x => x.size).sum < 2 ^ 24 →
      F32.is_nat (l.foldl (fun t h => F32.add t (F32.ofNat h.size)) acc)
        (a + (l.map fun x => x.size).sum) = true := by
    intro l
    induction l with
    | nil => intro acc a ha _; simpa using ha
    | cons x xs ih =>
      intro acc a ha hlt
      simp only [List.map_cons, List.sum_cons] at hlt
      have h1 := add_exact acc (F32.ofNat x.size) a x.size ha
        (ofNat_exact x.size (by omega)) (by omega)
      have h2 := ih (F32.add acc (F32.ofNat x.size)) (a + x.size) h1 (by omega)
      simp only [List.foldl_cons, List.map_cons, List.sum_cons]
      rw [← Nat.add_assoc]
      exact h2
  have h0 : F32.is_nat (.fin 0 0) 0 = true := by decide
  have := key result (.fin 0 0) 0 h0 (by omega)
  simpa [total_size1] using this

/-! ## The groups of the heavy-hitter report and their order -/

/-- C16 (what the code does): with 16777216 bytes logged at site `(1, 10)` and one byte
at site `(2, 20)` the grand total of the report is the `float` 16777216, while the sizes
in the log add up to 16777217; and two samples of line 10 whose file names are the same
string, held at the addresses `1` and `2`, are put in two groups of 8 bytes, not in one
group of 16. -/
theorem hh_total_rounded_and_names_by_address :
    hh_grouped std_sort none ex_log_big = .ok [⟨(1, 10), 16777216⟩, ⟨(2, 20), 1⟩] ∧
    total_size1 (std_sort sizeCompare [⟨(1, 10), 16777216⟩, ⟨(2, 20), 1⟩]) =
      .fin 8388608 1 ∧
    F32.is_nat (.fin 8388608 1) 16777216 = true ∧
    (ex_log_big.map fun h => h.size).sum = 16777217 ∧
    ex_names 1 = ex_names 2 ∧
    hh_grouped std_sort none ex_log_two_names = .ok [⟨(1, 10), 8⟩, ⟨(2, 10), 8⟩] := by
  refine ⟨rfl, rfl, by decide, rfl, rfl, rfl⟩

/-- C16 (amended): for every `std::sort` that keeps the promise of the library and every
non-empty log of fewer than `2^31` samples, the grouping of the report returns a list in
which the keys (address of the file name, line) are in strictly increasing order, so
that no key occurs twice; the keys of the list are the keys of the log; the size of a
group is the sum of the sizes of the samples with its key, in 64-bit arithmetic; two
samples are in the same group exactly when their keys are equal; the grand total, the
single-precision sum of the sizes of the ranked groups, is the sum of the sizes of all
samples when this sum is below `2^24`; and every percentage that the report prints is
computed with this grand total. -/
theorem hh_groups_by_address_key
    (sort : (hhstruct → hhstruct → Bool) → List hhstruct → List hhstruct)
    (hs1 : sorts_by lineCompare (sort lineCompare))
    (hs2 : sorts_by sizeCompare (sort sizeCompare))
    (log : List hhstruct) (hne : log ≠ [])
    (hlen : log.length < 2 ^ 31) (hsz : ∀ h ∈ log, h.size < WORD) :
    ∃ grouped,
      (∀ oob, hh_grouped sort oob log = .ok grouped) ∧
      (grouped.map fun g => g.file_line).Pairwise key_lt ∧
      (grouped.map fun g => g.file_line).Nodup ∧
      (∀ k, k ∈ (grouped.map fun g => g.file_line) ↔ k ∈ log.map fun h => h.file_line) ∧
      (∀ g ∈ grouped, g.size = key_sum log g.file_line % WORD) ∧
      (∀ a ∈ log, ∀ b ∈ log,
        (∃ g ∈ grouped, g.file_line = a.file_line ∧ g.file_line = b.file_line) ↔
          a.file_line = b.file_line) ∧
      ((log.map fun h => h.size).sum < 2 ^ 24 →
        F32.is_nat (total_size1 (sort sizeCompare grouped))
          (log.map fun h => h.size).sum = true) ∧
      (∀ j s, s.hhvec = log →
        m61_print_heavy_hitter_report_with sort (some j) s =
          .ok { s with
            hhvec := sort lineCompare log
            out := s.out ++ (heavy_lines (total_size1 (sort sizeCompare grouped)) [j] ++
              heavy_lines (total_size1 (sort sizeCompare grouped))
                (sort sizeCompare grouped).tail.reverse) }) := by
  obtain ⟨grouped, hret, hg⟩ :=
    hh_grouped_groups sort hs1 log hne (Nat.lt_trans hlen (by decide)) hsz
  obtain ⟨hgne, hpw, hs, hk, hc⟩ := hg
  refine ⟨grouped, hret, hpw, pairwise_key_lt_nodup _ hpw, ?_, hs, ?_, ?_, ?_⟩
  · intro k
    constructor
    · intro hk1
      obtain ⟨g, hg, hge⟩ := List.mem_map.1 hk1
      have hge1 : g.file_line = k := hge
      rw [← hge1]; exact hk g hg
    · intro hk1
      obtain ⟨h, hh, hhe⟩ := List.mem_map.1 hk1
      have hhe1 : h.file_line = k := hhe
      rw [← hhe1]; exact hc h hh
  · intro a ha b _
    constructor
    · rintro ⟨g, _, h1, h2⟩
      rw [← h1, h2]
    · intro hab
      obtain ⟨g, hg, hge⟩ := List.mem_map.1 (hc a ha)
      have hge1 : g.file_line = a.file_line := hge
      exact ⟨g, hg, hge1, by rw [hge1, hab]⟩
  · intro hsum
    have hw : (log.map fun h => h.size).sum < WORD := by
      unfold WORD; omega
    have e1 := groups_sum ⟨hgne, hpw, hs, hk, hc⟩ hw
    have e2 : ((sort sizeCompare grouped).map fun x => x.size).sum =
        (grouped.map fun x => x.size).sum := ((hs2 grouped).1.map _).sum_eq
    have := total_size1_exact (sort sizeCompare grouped) (by rw [e2, e1]; exact hsum)
    rw [e2, e1] at this
    exact this
  · intro j s hs1
    have := report_with_lines sort hs2 j s grouped hgne (by rw [hs1]; exact hret (some j))
    rw [hs1] at this
    exact this

theorem hh_groups_by_address_key_witness :
    sorts_by lineCompare (std_sort lineCompare) ∧
    sorts_by sizeCompare (std_sort sizeCompare) ∧
    ex_log_three ≠ [] ∧ ex_log_three.length < 2 ^ 31 ∧
    (∀ h ∈ ex_log_three, h.size < WORD) ∧
    ∃ grouped,
      (∀ oob, hh_grouped std_sort oob ex_log_three = .ok grouped) ∧
      (grouped.map fun g => g.file_line).Pairwise key_lt ∧
      (grouped.map fun g => g.file_line).Nodup ∧
      (∀ k, k ∈ (grouped.map fun g => g.file_line) ↔
        k ∈ ex_log_three.map fun h => h.file_line) ∧
      (∀ g ∈ grouped, g.size = key_sum ex_log_three g.file_line % WORD) ∧
      (∀ a ∈ ex_log_three, ∀ b ∈ ex_log_three,
        (∃ g ∈ grouped, g.file_line = a.file_line ∧ g.file_line = b.file_line) ↔
          a.file_line = b.file_line) ∧
      ((ex_log_three.map fun h => h.size).sum < 2 ^ 24 →
        F32.is_nat (total_size1 (std_sort sizeCompare grouped))
          (ex_log_three.map fun h => h.size).sum = true) ∧
      (∀ j s, s.hhvec = ex_log_three →
        m61_print_heavy_hitter_report_with std_sort (some j) s =
          .ok { s with
            hhvec := std_sort lineCompare ex_log_three
            out := s.out ++ (heavy_lines (total_size1 (std_sort sizeCompare grouped)) [j] ++
              heavy_lines (total_size1 (std_sort sizeCompare grouped))
                (std_sort sizeCompare grouped).tail.reverse) }) :=
  ⟨std_sort_sorts_lineCompare, std_sort_sorts_sizeCompare, by decide, by decide, by decide,
    hh_groups_by_address_key std_sort std_sort_sorts_lineCompare std_sort_sorts_sizeCompare
      ex_log_three (by decide) (by decide) (by decide)⟩

end M61
